import Mathlib

/-!
Verification development for the domain decomposition and particle exchange
subsystem of the MP-Gadget cosmological simulation code (the file domain.c of
the repository). The C functions are shallowly embedded as executable Lean
definitions over lists and exact arithmetic; machine integers are modelled by
Nat or Int (with explicit wrap where it can occur), asserting C doubles by
rationals, and every fatal error path (endrun, abort) by an Option none
result. Theorems below settle the frozen claims about these functions.
-/

open scoped List

/-! ## Data model

The base particle record and the black hole slot record. Their C struct
declarations live in allvars.h, which is not among the staged source files;
the fields below are modelled from the spec data model (section 3) and from
the accesses the staged code performs. Pos and Vel stand in for the physical
payload that the staged code copies but never inspects. The C field named
Type is rendered Ptype because Type is reserved in Lean; the spec fixes the
Generation counter at 8 bits, so its increment wraps modulo 256.
-/

structure particle_data where
  Pos : ℤ × ℤ × ℤ := (0, 0, 0)
  Vel : ℤ × ℤ × ℤ := (0, 0, 0)
  Mass : ℚ := 0
  Ptype : ℕ := 1
  ID : ℕ := 0
  Generation : ℕ := 0
  TimeBin : ℕ := 0
  GravCost : ℚ := 0
  Key : ℕ := 0
  PI : ℕ := 0
  OnAnotherDomain : Bool := false
  WillExport : Bool := false
deriving DecidableEq, Repr, Inhabited

/-- Modelled from the spec: a black hole auxiliary slot (struct
bh_particle_data of allvars.h, not among the staged files) carries the owner
particle identifier, the ReverseLink field used during garbage collection,
and accretion state the staged code never inspects (stood in by Acc). -/
structure bh_particle_data where
  ID : ℕ := 0
  ReverseLink : ℤ := -1
  Acc : ℤ := 0
deriving DecidableEq, Repr, Inhabited

/-! ## Particle forking (domain_fork_particle, part_001 lines 780-842) -/

/-- The state domain_fork_particle touches: the base particle table P (whose
length is NumPart), the capacity MaxPart, the active particle list, and the
optional force tree link lists (Nextnode, Father), present only when a force
tree is allocated. -/
structure fork_state where
  particles : List particle_data
  MaxPart : ℕ
  ActiveParticle : List ℕ
  tree : Option (List ℤ × List ℤ)
deriving DecidableEq, Repr

/-- Shallow embedding of domain_fork_particle. Returns none where the C code
calls endrun (NumPart has reached MaxPart), otherwise the updated state and
the child index. The parent Generation is incremented first (modulo 256, the
field being 8 bits wide), the child is a copy of the updated parent whose ID
keeps the low 56 bits of the parent ID and carries the new generation in the
high 8 bits, and whose Mass is zeroed; the plain addition is exact because
the generation is below 256, so the two summands occupy disjoint bit ranges
of the 64 bit identifier. -/
def domain_fork_particle (s : fork_state) (parent : ℕ) : Option (fork_state × ℕ) :=
  if s.particles.length ≥ s.MaxPart then none
  else
    let child := s.particles.length
    let pold := s.particles.getD parent default
    let pnew := { pold with Generation := (pold.Generation + 1) % 256 }
    let g := pnew.Generation
    let c := { pnew with ID := pold.ID % 2 ^ 56 + g * 2 ^ 56, Mass := 0 }
    let parts := (s.particles.set parent pnew) ++ [c]
    let act := s.ActiveParticle ++ [child]
    let tr :=
      match s.tree with
      | none => none
      | some (nx, fa) =>
          let no := nx.getD parent 0
          some (((nx.set parent (child : ℤ)).set child no, fa.set child (fa.getD parent 0)))
    some ({ particles := parts, MaxPart := s.MaxPart, ActiveParticle := act, tree := tr }, child)

/-- A concrete one-particle state used to witness the fork theorems. -/
def fork_demo_state : fork_state :=
  { particles := [{ Mass := 3, Ptype := 0, ID := 5, Generation := 0, PI := 7 }],
    MaxPart := 2, ActiveParticle := [], tree := none }

/-! ## The decomposition driver retry loop (domain_Decomposition, part_001 lines 134-161) -/

/-- Outcome of the decomposition driver loop: either all ranks succeed after
a number of budget recoveries, or endrun 781 aborts the run; either way the
final TopNodeAllocFactor and the number of recoveries performed are kept. -/
inductive decomp_outcome where
  | success (factor : ℚ) (retries : ℕ)
  | fatal (factor : ℚ) (retries : ℕ)
deriving DecidableEq, Repr

/-- Shallow embedding of the do-while retry loop of domain_Decomposition.
The environment is abstracted by fails, the number of leading attempts on
which domain_decompose reports a top node budget overflow (the allreduced
retsum is nonzero exactly on those attempts; the budget grows with the
factor, so each run is some such sequence of failures then a success). On a failed
attempt the driver frees the domain structures, multiplies TopNodeAllocFactor
by 1.3 and retries; endrun 781 aborts when the grown factor exceeds 1000. -/
def domain_Decomposition_loop : ℕ → ℚ → ℕ → decomp_outcome
  | 0, factor, retries => .success factor retries
  | fails + 1, factor, retries =>
      let factor2 := factor * (13 / 10)
      if 1000 < factor2 then .fatal factor2 (retries + 1)
      else domain_Decomposition_loop fails factor2 (retries + 1)

/-! ## Work balanced split (domain_findSplit_work_balanced, part_001 lines 957-995) -/

/-- Sum of the first n leaf costs. Because the split walks the leaves in
order from leaf 0, the committed cost plus the running segment cost always
equals such a leading sum. -/
def prefixSum (W : List ℚ) (n : ℕ) : ℚ := (W.take n).sum

/-- The inner while loop of domain_findSplit_work_balanced: from end index e
with accumulated segment cost w, the segment keeps extending while the
accumulated cost plus the cost already committed is below the next multiple
of the average (or, for the last segment, while any leaf remains), and only
while the leaves left outnumber the segments left; each extension adds the
cost of the next leaf. -/
def splitGrow (W : List ℚ) (nd ncpu i : ℕ) (wb wa wab : ℚ) (e : ℕ) (w : ℚ) : ℕ × ℚ :=
  if (w + wb < wa + wab) ∨ (i = ncpu - 1 ∧ e < nd - 1) then
    if h : ncpu - i < nd - e then
      splitGrow W nd ncpu i wb wa wab (e + 1) (w + W.getD (e + 1) 0)
    else (e, w)
  else (e, w)
termination_by nd - e
decreasing_by omega

/-- The outer for loop of domain_findSplit_work_balanced: one iteration per
segment index i, emitting the (DomainStartList[i], DomainEndList[i]) pair,
committing the closed segment cost into work_before (wb) and adding another
average into workavg_before (wab). -/
def splitOuter (W : List ℚ) (nd ncpu : ℕ) (wa : ℚ) (i start : ℕ) (wb wab : ℚ) : List (ℕ × ℕ) :=
  if h : i < ncpu then
    (start, (splitGrow W nd ncpu i wb wa wab start (W.getD start 0)).1) ::
      splitOuter W nd ncpu wa (i + 1)
        ((splitGrow W nd ncpu i wb wa wab start (W.getD start 0)).1 + 1)
        (wb + (splitGrow W nd ncpu i wb wa wab start (W.getD start 0)).2) (wab + wa)
  else []
termination_by ncpu - i
decreasing_by omega

/-- Shallow embedding of domain_findSplit_work_balanced with ncpu segments
over the leaf cost table W (ndomain = W.length): the list of
(DomainStartList[i], DomainEndList[i]) pairs. The float and double sums of
the C code are carried exactly over the rationals. -/
def domain_findSplit_work_balanced (W : List ℚ) (ncpu : ℕ) : List (ℕ × ℕ) :=
  splitOuter W W.length ncpu (W.sum / (ncpu : ℚ)) 0 0 0 0

/-! ## Mass zero garbage collection (domain_all_garbage_collection,
part_001 lines 1903-1957) -/

/-- The state domain_all_garbage_collection touches: the base particle table
P (whose length is NumPart), the gas slot table SphP (opaque fluid payloads
paired by position with the gas region of the base table), the dense gas
region size N_sph_slots, and the per timebin counters. -/
structure gc_state where
  particles : List particle_data
  SphP : List ℤ
  N_sph_slots : ℕ
  TimeBinCount : List ℤ
  TimeBinCountSph : List ℤ
deriving DecidableEq, Repr

/-- The base table update removing a zero mass gas entry at index i: P[i] =
P[N_sph_slots - 1]; P[N_sph_slots - 1] = P[NumPart - 1]; NumPart is then
decremented (the table shortens by one). The second assignment reads the
table after the first one, as the C statements do. -/
def gcRemoveGas (l : List particle_data) (nsph i : ℕ) : List particle_data :=
  ((l.set i (l.getD (nsph - 1) default)).set (nsph - 1)
      ((l.set i (l.getD (nsph - 1) default)).getD (l.length - 1) default)).take (l.length - 1)

/-- The base table update removing a zero mass non gas entry at index i:
P[i] = P[NumPart - 1]; NumPart is then decremented. -/
def gcRemoveTail (l : List particle_data) (i : ℕ) : List particle_data :=
  (l.set i (l.getD (l.length - 1) default)).take (l.length - 1)

/-- Decrement of one entry of a counter table. -/
def decAt (c : List ℤ) (b : ℕ) : List ℤ := c.set b (c.getD b 0 - 1)

/-- Shallow embedding of the elimination loop of
domain_all_garbage_collection from index i on: an entry with zero mass is
removed by the end swap (for gas, the gas region end moves into its place,
the table end moves into the gas region end, the matching gas slot is copied
and the gas region shrinks; otherwise the table end moves into its place),
its timebin counters are decremented, and the same index is rechecked (the C
loop decrements i before the next increment); a nonzero mass entry just
advances the index. -/
def gcAllLoop (s : gc_state) (i : ℕ) : gc_state :=
  if hlen : i < s.particles.length then
    if (s.particles.getD i default).Mass = 0 then
      if (s.particles.getD i default).Ptype = 0 then
        gcAllLoop
          { particles := gcRemoveGas s.particles s.N_sph_slots i,
            SphP := s.SphP.set i (s.SphP.getD (s.N_sph_slots - 1) 0),
            N_sph_slots := s.N_sph_slots - 1,
            TimeBinCount := decAt s.TimeBinCount (s.particles.getD i default).TimeBin,
            TimeBinCountSph := decAt s.TimeBinCountSph (s.particles.getD i default).TimeBin } i
      else
        gcAllLoop
          { particles := gcRemoveTail s.particles i,
            SphP := s.SphP,
            N_sph_slots := s.N_sph_slots,
            TimeBinCount := decAt s.TimeBinCount (s.particles.getD i default).TimeBin,
            TimeBinCountSph := s.TimeBinCountSph } i
    else gcAllLoop s (i + 1)
  else s
termination_by s.particles.length - i
decreasing_by
  · simp only [gcRemoveGas, List.length_take, List.length_set]
    omega
  · simp only [gcRemoveTail, List.length_take, List.length_set]
    omega
  · omega

/-- Shallow embedding of domain_all_garbage_collection: run the elimination
loop from index 0 and report the force tree invalid exactly when the
particle count changed (the C code compares the allreduced totals before and
after; on this single rank model that is the local count). -/
def domain_all_garbage_collection (s : gc_state) : gc_state × Bool :=
  ((gcAllLoop s 0), decide ((gcAllLoop s 0).particles.length ≠ s.particles.length))

/-- A concrete state used to witness the mass zero elimination theorem: a
dead gas entry at index 0, a live gas entry, a live dark matter entry and a
dead dark matter entry. -/
def gc_demo_state : gc_state :=
  { particles := [{ Mass := 0, Ptype := 0, ID := 1, TimeBin := 2 },
                  { Mass := 1, Ptype := 0, ID := 2, TimeBin := 1 },
                  { Mass := 1, Ptype := 1, ID := 3, TimeBin := 1 },
                  { Mass := 0, Ptype := 1, ID := 4, TimeBin := 1 }],
    SphP := [11, 12, 0, 0],
    N_sph_slots := 2,
    TimeBinCount := [0, 2, 2, 0],
    TimeBinCountSph := [0, 1, 1, 0] }

/-! ## Memory bound check and the split fallback (domain_check_memory_bound,
part_001 lines 434-493, and domain_decompose, lines 311-331) -/

/-- Sum of the counts over the inclusive leaf index range a..b (the C inner
for loop runs while i le b, so an empty range when b is below a). -/
def rangeSumZ (counts : List ℤ) (a b : ℕ) : ℤ :=
  ((List.range (b + 1 - a)).map (fun t => counts.getD (a + t) 0)).sum

/-- The per task particle load of domain_check_memory_bound: task ta owns the
DomainOverDecompositionFactor segments at indices ta*odf..ta*odf+odf-1 of
DomainStartList/DomainEndList, and its load sums domainCount over their
leaves. -/
def rank_load (startL endL : List ℕ) (counts : List ℤ) (odf ta : ℕ) : ℤ :=
  ((List.range odf).map (fun m =>
    rangeSumZ counts (startL.getD (ta * odf + m) 0) (endL.getD (ta * odf + m) 0))).sum

/-- Shallow embedding of domain_check_memory_bound: 1 when the largest per
task load (the running maximum starting from 0) exceeds MaxPart, else 0. -/
def domain_check_memory_bound (startL endL : List ℕ) (counts : List ℤ)
    (odf ntask : ℕ) (maxPart : ℤ) : ℕ :=
  let maxLoad := ((List.range ntask).map (fun ta => rank_load startL endL counts odf ta)).foldl max 0
  if maxPart < maxLoad then 1 else 0

/-- Which split domain_decompose ends up committing to. -/
inductive split_choice where
  | workSplit
  | loadSplit
  | fatalMemory
deriving DecidableEq, Repr

/-- The fallback control flow of domain_decompose: keep the work balanced
split when its memory check passes; otherwise rebuild with the load balanced
split and check again; if that also fails, endrun (fatal). The arguments are
the two candidate segment tables (start and end lists indexed so that task ta
owns entries ta*odf..ta*odf+odf-1) and the global per leaf count table. -/
def domain_decompose_strategy (startW endW startL endL : List ℕ) (counts : List ℤ)
    (odf ntask : ℕ) (maxPart : ℤ) : split_choice :=
  if domain_check_memory_bound startW endW counts odf ntask maxPart = 0 then .workSplit
  else if domain_check_memory_bound startL endL counts odf ntask maxPart = 0 then .loadSplit
  else .fatalMemory

/-! ## Black hole garbage collection (domain_bh_garbage_collection, part_001
lines 700-778, and bh_cmp_reverse_link, lines 688-698) -/

/-- The state domain_bh_garbage_collection touches: the base particle table,
the allocated black hole slot table (of length MaxPartBh) and the live slot
count N_bh_slots. -/
structure bh_state where
  particles : List particle_data
  BhP : List bh_particle_data
  N_bh_slots : ℕ
deriving DecidableEq, Repr

/-- The qsort comparator bh_cmp_reverse_link as a boolean order (b1 sorts no
later than b2): slots with ReverseLink -1 sort after every other slot and
tie among themselves; other slots ascend by ReverseLink. -/
def bh_cmp_reverse_link_le (b1 b2 : bh_particle_data) : Bool :=
  if b1.ReverseLink = -1 ∧ b2.ReverseLink = -1 then true
  else if b1.ReverseLink = -1 then false
  else if b2.ReverseLink = -1 then true
  else decide (b1.ReverseLink ≤ b2.ReverseLink)

/-- Phase 1: write ReverseLink = -1 into every allocated black hole slot. -/
def bhResetAll (bhp : List bh_particle_data) : List bh_particle_data :=
  bhp.map (fun b => { b with ReverseLink := -1 })

/-- Phase 2, first k base indices: each type 5 entry writes its base index
into the ReverseLink of its slot P[i].PI, in increasing index order as the C
loop does. -/
def bhLinkAux (particles : List particle_data) (bhp : List bh_particle_data) :
    ℕ → List bh_particle_data
  | 0 => bhp
  | k + 1 =>
      if (particles.getD k default).Ptype = 5 then
        (bhLinkAux particles bhp k).set (particles.getD k default).PI
          { (bhLinkAux particles bhp k).getD (particles.getD k default).PI default with
            ReverseLink := (k : ℤ) }
      else bhLinkAux particles bhp k

/-- Phase 2 over the whole base table. -/
def bhLink (particles : List particle_data) (bhp : List bh_particle_data) :
    List bh_particle_data :=
  bhLinkAux particles bhp particles.length

/-- The consistency condition the C linking loop asserts (endrun on failure):
every type 5 base entry points into the live slot region and its slot
carries its ID. -/
def bhCheckPass (particles : List particle_data) (bhp : List bh_particle_data)
    (nbh : ℕ) : Prop :=
  ∀ i, i < particles.length → (particles.getD i default).Ptype = 5 →
    (particles.getD i default).PI < nbh ∧
    (bhp.getD (particles.getD i default).PI default).ID = (particles.getD i default).ID

instance (particles : List particle_data) (bhp : List bh_particle_data) (nbh : ℕ) :
    Decidable (bhCheckPass particles bhp nbh) :=
  Nat.decidableBallLT _ _

/-- The comparator as a decidable relation, the form the sort takes. -/
def bh_le (b1 b2 : bh_particle_data) : Prop := bh_cmp_reverse_link_le b1 b2 = true

instance : DecidableRel bh_le := fun b1 b2 => Bool.decEq _ _

/-- Phase 3 sorts the live slot region with qsort; modelled by insertion
sort with the comparator order (the entries compare equal only when both
links are -1, and no property below depends on the order of those). -/
def bhSortedPre (s : bh_state) : List bh_particle_data :=
  List.insertionSort bh_le ((bhLink s.particles (bhResetAll s.BhP)).take s.N_bh_slots)

/-- Phase 4: shrink the live region while its last slot has ReverseLink -1. -/
def bhShrink (l : List bh_particle_data) : ℕ → ℕ
  | 0 => 0
  | n + 1 => if (l.getD n default).ReverseLink = -1 then bhShrink l n else n + 1

/-- The live slot count after the pass. -/
def bhNewN (s : bh_state) : ℕ := bhShrink (bhSortedPre s) s.N_bh_slots

/-- Phase 5, first k live slots: slot i writes its new index i into the PI of
the base entry its ReverseLink names, in increasing slot order. -/
def bhRelinkAux (particles : List particle_data) (srt : List bh_particle_data) :
    ℕ → List particle_data
  | 0 => particles
  | k + 1 =>
      (bhRelinkAux particles srt k).set (srt.getD k default).ReverseLink.toNat
        { (bhRelinkAux particles srt k).getD (srt.getD k default).ReverseLink.toNat default with
          PI := k }

/-- The base table after the pass. -/
def bhNewParticles (s : bh_state) : List particle_data :=
  bhRelinkAux s.particles (bhSortedPre s) (bhNewN s)

/-- Phase 6: reset ReverseLink to -1 on the surviving live slots. -/
def bhResetFirst (bhp : List bh_particle_data) (n : ℕ) : List bh_particle_data :=
  (bhp.take n).map (fun b => { b with ReverseLink := -1 }) ++ bhp.drop n

/-- The slot table after the pass: the sorted live region followed by the
untouched tail of the allocation, with the surviving links reset. -/
def bhNewBhP (s : bh_state) : List bh_particle_data :=
  bhResetFirst (bhSortedPre s ++ (bhLink s.particles (bhResetAll s.BhP)).drop s.N_bh_slots)
    (bhNewN s)

/-- The verification the C code performs at the end of the pass (endrun on
failure): every type 5 entry points into the shrunk live region at a slot
carrying its ID, and the type 5 entries are exactly counted by the live
region. -/
def bhFinalPass (s : bh_state) : Prop :=
  (∀ i, i < (bhNewParticles s).length → ((bhNewParticles s).getD i default).Ptype = 5 →
    ((bhNewParticles s).getD i default).PI < bhNewN s ∧
    ((bhNewBhP s).getD ((bhNewParticles s).getD i default).PI default).ID
      = ((bhNewParticles s).getD i default).ID) ∧
  (bhNewParticles s).countP (fun q => decide (q.Ptype = 5)) = bhNewN s

instance (s : bh_state) : Decidable (bhFinalPass s) :=
  instDecidableAnd

/-- Shallow embedding of domain_bh_garbage_collection. With no live slots the
pass bails out untouched (the allreduced slot total of this single rank
model is N_bh_slots). Otherwise the slots are relinked, sorted, shrunk and
reindexed; every endrun of the C code (the consistency assertion inside the
linking loop and the final verification) is modelled by none. The function
returns result 0 in every non fatal case, as the C function does. -/
def domain_bh_garbage_collection (s : bh_state) : Option (bh_state × ℕ) :=
  if s.N_bh_slots = 0 then some (s, 0)
  else if bhCheckPass s.particles s.BhP s.N_bh_slots then
    if bhFinalPass s then
      some ({ particles := bhNewParticles s, BhP := bhNewBhP s, N_bh_slots := bhNewN s }, 0)
    else none
  else none

/-- A concrete state used to witness the black hole collection theorems: two
live slots, one of them orphaned (its owner was deleted), and one type 5
base entry pointing at the other. -/
def bh_demo_state : bh_state :=
  { particles := [{ Mass := 1, Ptype := 5, ID := 9, PI := 1 },
                  { Mass := 1, Ptype := 1, ID := 3 }],
    BhP := [{ ID := 4, ReverseLink := 7 }, { ID := 9, ReverseLink := 5 }, { ID := 0 }],
    N_bh_slots := 2 }

/-- The state domain_bh_garbage_collection produces on bh_demo_state: the
orphaned slot is dropped, the live slot moves to the front, and the type 5
base entry is repointed at it. -/
def bh_demo_result : bh_state :=
  { particles := [{ Mass := 1, Ptype := 5, ID := 9, PI := 0 },
                  { Mass := 1, Ptype := 1, ID := 3 }],
    BhP := [{ ID := 9 }, { ID := 4 }, { ID := 0 }],
    N_bh_slots := 1 }

/-! ## Local top tree refinement (domain_check_for_local_refine, part_001
lines 1372-1448, driven from domain_determineTopTree, lines 1547-1600) -/

/-- A top level tree node (struct local_topnode_data, part_001 lines 50-62):
the peano key interval [StartKey, StartKey + Size), the local particle count
and gravity cost, the index of the first of the 8 daughters (-1 at a leaf),
the parent index (-1 at the root) and the first particle index. The Leaf
number is assigned only by domain_walktoptree and is left out. -/
structure local_topnode_data where
  Size : ℕ := 0
  StartKey : ℕ := 0
  Count : ℕ := 0
  Daughter : ℤ := -1
  Parent : ℤ := -1
  PIndex : ℕ := 0
  Cost : ℚ := 0
deriving DecidableEq, Repr, Inhabited

/-- The state domain_check_for_local_refine touches: the top node array, its
occupancy NTopnodes and the capacity MaxTopNodes. -/
structure refine_state where
  topNodes : List local_topnode_data
  NTopnodes : ℕ
  MaxTopNodes : ℕ
deriving DecidableEq, Repr

/-- A sorted peano key table entry (struct peano_hilbert_data): a particle
key and the index of the particle it came from. -/
structure peano_hilbert_data where
  key : ℕ := 0
  index : ℕ := 0
deriving DecidableEq, Repr, Inhabited

/-- Lines 1398-1414: initialise the first j daughters of node i, each with
no daughters, parent i, an eighth of the key size (Size >> 3), consecutive
start keys, the parent first particle index and zero count and cost. The C
loop re-reads topNodes[i].Daughter every iteration, as done here. -/
def refineInitSub (st : List local_topnode_data) (i : ℕ) : ℕ → List local_topnode_data
  | 0 => st
  | j + 1 =>
      let st2 := refineInitSub st i j
      let sub := (st2.getD i default).Daughter.toNat + j
      st2.set sub
        { Size := (st2.getD i default).Size / 8,
          StartKey := (st2.getD i default).StartKey + j * ((st2.getD i default).Size / 8),
          Count := 0, Daughter := -1, Parent := (i : ℤ),
          PIndex := (st2.getD i default).PIndex, Cost := 0 }

/-- Lines 1424-1431: advance the daughter index j past every daughter whose
StartKey the current key has reached, recording particle p as its first,
stopping at daughter 7 as the C while loop does. -/
def refineAdvance (st : List local_topnode_data) (sub p key j : ℕ) :
    ℕ × List local_topnode_data :=
  if h : j < 7 ∧ (st.getD (sub + j + 1) default).StartKey ≤ key then
    refineAdvance
      (st.set (sub + j + 1) { st.getD (sub + j + 1) default with PIndex := p })
      sub p key (j + 1)
  else (j, st)
termination_by 7 - j

/-- Lines 1417-1436: walk the cnt particles of the refined node in key order
and add the cost and count of each to the daughter it falls in. sub, pind
and cnt are the values of topNodes[i].Daughter, .PIndex and .Count, which
the fresh daughters never overlap, so the per-iteration reads of the C loop
are constant. -/
def refineParticles (costfac : ℕ → ℚ) (mp : List peano_hilbert_data)
    (sub pind cnt : ℕ) (st : List local_topnode_data) (p j : ℕ) :
    List local_topnode_data :=
  if h : p < cnt then
    let adv := refineAdvance st sub p ((mp.getD (p + pind) default).key) j
    let st3 := adv.2.set (sub + adv.1)
      { adv.2.getD (sub + adv.1) default with
        Cost := (adv.2.getD (sub + adv.1) default).Cost
          + costfac ((mp.getD (p + pind) default).index),
        Count := (adv.2.getD (sub + adv.1) default).Count + 1 }
    refineParticles costfac mp sub pind cnt st3 (p + 1) adv.1
  else st
termination_by cnt - p

/-- Lines 1439-1446: refine the daughters left to do (daughter 8 - n comes
next) through the recursive call f, propagating a nonzero result (out of
top nodes) at once. The C loop re-reads topNodes[i].Daughter, which the
daughters of fresh index never change. -/
def refineDaughters (f : ℕ → refine_state → Option (ℕ × refine_state)) (sub : ℕ) :
    ℕ → refine_state → Option (ℕ × refine_state)
  | 0, s => some (0, s)
  | n + 1, s =>
      match f (sub + (8 - (n + 1))) s with
      | none => none
      | some (r, s2) => if r = 0 then refineDaughters f sub n s2 else some (1, s2)

/-- Shallow embedding of domain_check_for_local_refine on node i. costfac
stands for domain_particle_costfactor (lines 220-226; its TIMEBASE constant
is not among the staged files), mp for the sorted key table. Returns the
result (0 done, 1 out of top nodes) with the state; the C recursion, which
the caller trusts to terminate, is fuelled, with none for exhaustion. The
guards are those of lines 1377-1391: done below 8 cells; done at a node
with no parent or at most 80 percent of the parent count and cost; out of
space when 8 more nodes would pass MaxTopNodes. -/
def domain_check_for_local_refine (costfac : ℕ → ℚ) (mp : List peano_hilbert_data) :
    ℕ → ℕ → refine_state → Option (ℕ × refine_state)
  | 0, _, _ => none
  | fuel + 1, i, s =>
      if (s.topNodes.getD i default).Size < 8 then some (0, s)
      else if (s.topNodes.getD i default).Parent < 0 ∨
          (((s.topNodes.getD i default).Count : ℚ)
              ≤ (8 / 10 : ℚ)
                * ((s.topNodes.getD (s.topNodes.getD i default).Parent.toNat default).Count : ℚ) ∧
            (s.topNodes.getD i default).Cost
              ≤ (8 / 10 : ℚ)
                * (s.topNodes.getD (s.topNodes.getD i default).Parent.toNat default).Cost) then
        some (0, s)
      else if s.MaxTopNodes < s.NTopnodes + 8 then some (1, s)
      else
        let st1 := s.topNodes.set i
          { s.topNodes.getD i default with Daughter := (s.NTopnodes : ℤ) }
        let st2 := refineInitSub st1 i 8
        let st3 := refineParticles costfac mp s.NTopnodes
          ((st2.getD i default).PIndex) ((st2.getD i default).Count) st2 0 0
        refineDaughters (domain_check_for_local_refine costfac mp fuel) s.NTopnodes 8
          { topNodes := st3, NTopnodes := s.NTopnodes + 8, MaxTopNodes := s.MaxTopNodes }

/-- The root state domain_determineTopTree builds (lines 1577-1589) for a
rank with 100 particles of total cost 100 in a 64 cell key space, with room
for 100 top nodes: the single top node covers every key and particle and
has no parent, as the initial call domain_check_for_local_refine(0, mp)
sees it. -/
def refine_demo_state : refine_state :=
  { topNodes := [{ Size := 64, StartKey := 0, Count := 100, Daughter := -1,
                   Parent := -1, PIndex := 0, Cost := 100 }],
    NTopnodes := 1,
    MaxTopNodes := 100 }

/-! ## The exchange receive side safety loop (domain_countToGo, part_001
lines 1118-1336) -/

/-- Equality of Except results is decidable when both sides are. -/
instance {E A : Type} [DecidableEq E] [DecidableEq A] : DecidableEq (Except E A) :=
  fun a b =>
    match a, b with
    | .error e1, .error e2 =>
        if h : e1 = e2 then .isTrue (by rw [h]) else .isFalse (by simp [h])
    | .ok a1, .ok a2 =>
        if h : a1 = a2 then .isTrue (by rw [h]) else .isFalse (by simp [h])
    | .error e1, .ok a2 => .isFalse (by simp)
    | .ok a1, .error e2 => .isFalse (by simp)

/-- The state of the safety loop across the whole communicator: the count
matrices, indexed source rank then target rank (toGo[r] is the row rank r
sends; toGet[r] the stale inbound snapshot rank r gathered by the alltoall
before the loop), and the allgathered per rank occupancies of lines
1126-1128. -/
structure exchange_state where
  toGo : List (List ℕ)
  toGoSph : List (List ℕ)
  toGoBh : List (List ℕ)
  toGet : List (List ℕ)
  toGetSph : List (List ℕ)
  toGetBh : List (List ℕ)
  list_NumPart : List ℕ
  list_N_sph : List ℕ
  list_N_bh : List ℕ
deriving DecidableEq, Repr

/-- Sum of the first ntask entries of a row, the count_ sums of lines
1148-1156. -/
def rankSum (ntask : ℕ) (row : List ℕ) : ℕ :=
  ((List.range ntask).map (fun i => row.getD i 0)).sum

/-- Column ta of a matrix: what each rank sends to ta. -/
def colOf (m : List (List ℕ)) (ta : ℕ) : List ℕ :=
  m.map (fun row => row.getD ta 0)

/-- Write column ta of a matrix back. -/
def setCol (m : List (List ℕ)) (ta : ℕ) (c : List ℕ) : List (List ℕ) :=
  (List.range m.length).map (fun r => (m.getD r []).set ta (c.getD r 0))

/-- The cyclic rank advance of lines 1190-1192: i++, wrapping to 0 at
NTask. -/
def nextRank (ntask i : ℕ) : ℕ := if ntask ≤ i + 1 then 0 else i + 1

/-- The shedding loop of lines 1174-1193 (and its two copies at 1205-1224
and 1237-1255) over the column of counts bound for the overflowing rank:
while particles remain to shed, the rank whose turn it is drops one inbound
particle if it has any to drop, and the turn advances cyclically. The C
loop spins forever once the column is exhausted; the fuel returns none in
that case. -/
def shedLoop (ntask : ℕ) : ℕ → List ℕ → ℕ → ℕ → Option (List ℕ)
  | _, col, 0, _ => some col
  | 0, _, _ + 1, _ => none
  | fuel + 1, col, n + 1, i =>
      if 0 < col.getD i 0 then
        shedLoop ntask fuel (col.set i (col.getD i 0 - 1)) n (nextRank ntask i)
      else shedLoop ntask fuel col (n + 1) (nextRank ntask i)

/-- One target rank ta of the sweep of lines 1141-1257: compute the count
sums (current rows, stale toGet snapshots), then in order the gas overflow
against MaxPart (lines 1164-1194), the black hole overflow against
MaxPartBh (1195-1225), and, with count_toget lowered by what the first two
sheds removed, the total overflow against MaxPart (1227-1256). Each
overflow sheds its excess round robin from rank flagsum % NTask and raises
the flag. A shed that can never finish is the error 0 (the C loop hangs);
the flag accompanies the updated matrices otherwise. -/
def sweepTa (ntask maxPart maxPartBh fuel flagsum ta : ℕ) (s : exchange_state) :
    Except ℕ (exchange_state × Bool) :=
  let cg : ℤ := rankSum ntask (s.toGo.getD ta [])
  let ct : ℤ := rankSum ntask (s.toGet.getD ta [])
  let cgs : ℤ := rankSum ntask (s.toGoSph.getD ta [])
  let cts : ℤ := rankSum ntask (s.toGetSph.getD ta [])
  let cgb : ℤ := rankSum ntask (s.toGoBh.getD ta [])
  let ctb : ℤ := rankSum ntask (s.toGetBh.getD ta [])
  let o1 : ℤ := (s.list_N_sph.getD ta 0 : ℤ) + cts - cgs - (maxPart : ℤ)
  let step1 : Except ℕ (List (List ℕ)) :=
    if 0 < o1 then
      match shedLoop ntask fuel (colOf s.toGoSph ta) o1.toNat (flagsum % ntask) with
      | none => .error 0
      | some c => .ok (setCol s.toGoSph ta c)
    else .ok s.toGoSph
  match step1 with
  | .error e => .error e
  | .ok sph2 =>
      let o2 : ℤ := (s.list_N_bh.getD ta 0 : ℤ) + ctb - cgb - (maxPartBh : ℤ)
      let step2 : Except ℕ (List (List ℕ)) :=
        if 0 < o2 then
          match shedLoop ntask fuel (colOf s.toGoBh ta) o2.toNat (flagsum % ntask) with
          | none => .error 0
          | some c => .ok (setCol s.toGoBh ta c)
        else .ok s.toGoBh
      match step2 with
      | .error e => .error e
      | .ok bh2 =>
          let ct2 : ℤ := ct - (if 0 < o1 then o1 else 0) - (if 0 < o2 then o2 else 0)
          let o3 : ℤ := (s.list_NumPart.getD ta 0 : ℤ) + ct2 - cg - (maxPart : ℤ)
          let step3 : Except ℕ (List (List ℕ)) :=
            if 0 < o3 then
              match shedLoop ntask fuel (colOf s.toGo ta) o3.toNat (flagsum % ntask) with
              | none => .error 0
              | some c => .ok (setCol s.toGo ta c)
            else .ok s.toGo
          match step3 with
          | .error e => .error e
          | .ok go2 =>
              .ok ({ s with toGo := go2, toGoSph := sph2, toGoBh := bh2 },
                decide (0 < o1) || decide (0 < o2) || decide (0 < o3))

/-- The sweep over every target rank (for ta of line 1141), target
ntask - n next, accumulating the flag. -/
def sweepFrom (ntask maxPart maxPartBh fuel flagsum : ℕ) :
    ℕ → exchange_state → Bool → Except ℕ (exchange_state × Bool)
  | 0, s, fl => .ok (s, fl)
  | n + 1, s, fl =>
      match sweepTa ntask maxPart maxPartBh fuel flagsum (ntask - (n + 1)) s with
      | .error e => .error e
      | .ok (s2, fl2) => sweepFrom ntask maxPart maxPartBh fuel flagsum n s2 (fl || fl2)

/-- The inner do while of lines 1137-1264: run a sweep, add the flag to
flagsum, abort with endrun 1013 the moment flagsum passes 100, and repeat
while the sweep flagged. left is structural fuel the entry point sets to
101, which the guard keeps ahead of the recursion, so the left = 0 arm
(also the fatal error) is never taken from the entry point; on exit the
pair carries the final flagsum the outer loop of the C code tests. -/
def safetyInner (ntask maxPart maxPartBh fuel : ℕ) :
    ℕ → ℕ → exchange_state → Except ℕ (exchange_state × ℕ)
  | left, flagsum, s =>
      match sweepFrom ntask maxPart maxPartBh fuel flagsum ntask s false with
      | .error e => .error e
      | .ok (s2, fl) =>
          if 100 < flagsum + (if fl then 1 else 0) then .error 1013
          else if fl then
            match left with
            | 0 => .error 1013
            | left2 + 1 =>
                safetyInner ntask maxPart maxPartBh fuel left2 (flagsum + 1) s2
          else .ok (s2, flagsum + (if fl then 1 else 0))

/-- The receive side safety pass as entered at line 1133 with flagsum = 0.
The rebuild of the toGo rows from the particle table and the alltoall
refresh (lines 1266-1331) happen after this loop exits and are not part of
the safety property. -/
def domain_countToGo_safety (ntask maxPart maxPartBh fuel : ℕ) (s : exchange_state) :
    Except ℕ (exchange_state × ℕ) :=
  safetyInner ntask maxPart maxPartBh fuel 101 0 s

/-- A two rank state with nothing to exchange: the sweep finds no overflow
and the safety loop exits at once. -/
def exchange_demo_ok : exchange_state :=
  { toGo := [[0, 0], [0, 0]], toGoSph := [[0, 0], [0, 0]], toGoBh := [[0, 0], [0, 0]],
    toGet := [[0, 0], [0, 0]], toGetSph := [[0, 0], [0, 0]], toGetBh := [[0, 0], [0, 0]],
    list_NumPart := [1, 1], list_N_sph := [0, 0], list_N_bh := [0, 0] }

/-- A two rank state whose stale inbound snapshot overflows rank 1 by one
particle every sweep (the snapshot never refreshes inside the loop), with
plenty of outbound count to shed from: the flag raises on all 101 sweeps
and the loop aborts with endrun 1013. -/
def exchange_demo_over : exchange_state :=
  { toGo := [[0, 1000], [0, 0]], toGoSph := [[0, 0], [0, 0]], toGoBh := [[0, 0], [0, 0]],
    toGet := [[0, 0], [2, 0]], toGetSph := [[0, 0], [0, 0]], toGetBh := [[0, 0], [0, 0]],
    list_NumPart := [1, 1], list_N_sph := [0, 0], list_N_bh := [0, 0] }

/-- exchange_demo_over after one sweep at flagsum 100: rank 0, whose turn
the round robin start 100 mod 2 makes it, has shed one of its 1000 inbound
particles for rank 1. -/
def exchange_demo_shed : exchange_state :=
  { toGo := [[0, 999], [0, 0]], toGoSph := [[0, 0], [0, 0]], toGoBh := [[0, 0], [0, 0]],
    toGet := [[0, 0], [2, 0]], toGetSph := [[0, 0], [0, 0]], toGetBh := [[0, 0], [0, 0]],
    list_NumPart := [1, 1], list_N_sph := [0, 0], list_N_bh := [0, 0] }

/-! ## Theorems -/

/-- Reading just past the original end of an extended list returns the
appended element. -/
theorem getD_append_self {α : Type} [Inhabited α] (l : List α) (c : α) :
    (l ++ [c]).getD l.length default = c := by
  simp [List.getD, List.getElem?_append_right]

/-- Reading inside the original part of an extended list is unchanged. -/
theorem getD_append_lt {α : Type} [Inhabited α] (l : List α) (c : α) (j : ℕ)
    (h : j < l.length) : (l ++ [c]).getD j default = l.getD j default := by
  simp [List.getD, List.getElem?_append_left, h]

/-- Reading an updated list at the updated index returns the new value. -/
theorem getD_set_self {α : Type} [Inhabited α] (l : List α) (a : α) (i : ℕ)
    (h : i < l.length) : (l.set i a).getD i default = a := by
  simp [List.getD, List.getElem?_set_self, h]

/-- Reading an updated list away from the updated index is unchanged. -/
theorem getD_set_ne {α : Type} [Inhabited α] (l : List α) (a : α) (i j : ℕ)
    (h : i ≠ j) : (l.set i a).getD j default = l.getD j default := by
  simp [List.getD, List.getElem?_set_ne, h]

/-- Reading the appended element of a set-then-extend update. -/
theorem getD_set_append_self {α : Type} [Inhabited α] (l : List α) (a c : α) (i : ℕ) :
    ((l.set i a) ++ [c]).getD l.length default = c := by
  have h := getD_append_self (l.set i a) c
  rwa [List.length_set] at h

/-- Reading the updated index of a set-then-extend update. -/
theorem getD_set_append_set {α : Type} [Inhabited α] (l : List α) (a c : α) (i : ℕ)
    (h : i < l.length) : ((l.set i a) ++ [c]).getD i default = a := by
  have h1 := getD_append_lt (l.set i a) c i (by simpa using h)
  rw [h1, getD_set_self _ _ _ h]

/-- Joining the low 56 bits of an identifier with a generation byte of 1: the
sum form the code computes equals the masked-or form the spec quotes. -/
theorem id_mask_lor_eq (x : ℕ) :
    x % 2 ^ 56 + 1 * 2 ^ 56 = (x &&& 0x00ffffffffffffff) ||| 1 <<< 56 := by
  have hmask : x &&& 0x00ffffffffffffff = x % 2 ^ 56 := by
    have h := Nat.and_pow_two_sub_one_eq_mod x 56
    norm_num at h
    exact h
  have hlt : x % 2 ^ 56 < 2 ^ 56 := Nat.mod_lt _ (by norm_num)
  have hor := Nat.mul_add_lt_is_or hlt 1
  have hs : (1 : ℕ) <<< 56 = 2 ^ 56 := by simp [Nat.shiftLeft_eq]
  rw [hmask, hs, Nat.lor_comm]
  calc x % 2 ^ 56 + 1 * 2 ^ 56 = 2 ^ 56 * 1 + x % 2 ^ 56 := by ring
  _ = 2 ^ 56 * 1 ||| x % 2 ^ 56 := hor
  _ = 2 ^ 56 ||| x % 2 ^ 56 := by rw [Nat.mul_one]

/-- Claim C4: with NumPart below MaxPart, domain_fork_particle appends a copy
of the parent at the fresh index NumPart, increments the parent generation
counter, stamps the high 8 bits of the child identifier with the new
generation (for a first fork the child ID is the parent ID masked to its low
56 bits or-ed with 1 shifted by 56), and zeroes the child mass; with NumPart
at or above MaxPart the fork is a fatal error (endrun 8888, modelled none). -/
theorem domain_fork_particle_C4 (s : fork_state) (parent : ℕ)
    (hp : parent < s.particles.length) :
    (s.MaxPart ≤ s.particles.length → domain_fork_particle s parent = none) ∧
    (s.particles.length < s.MaxPart →
      ∃ s2, domain_fork_particle s parent = some (s2, s.particles.length) ∧
        s2.particles.length = s.particles.length + 1 ∧
        (s2.particles.getD s.particles.length default).Mass = 0 ∧
        (s2.particles.getD s.particles.length default).Generation
          = ((s.particles.getD parent default).Generation + 1) % 256 ∧
        (s2.particles.getD parent default).Generation
          = ((s.particles.getD parent default).Generation + 1) % 256 ∧
        (s2.particles.getD s.particles.length default).ID
          = (s.particles.getD parent default).ID % 2 ^ 56
            + ((s.particles.getD parent default).Generation + 1) % 256 * 2 ^ 56 ∧
        ((s.particles.getD parent default).Generation = 0 →
          (s2.particles.getD s.particles.length default).ID
            = ((s.particles.getD parent default).ID &&& 0x00ffffffffffffff) ||| 1 <<< 56)) := by
  constructor
  · intro h
    unfold domain_fork_particle
    rw [if_pos h]
  · intro h
    unfold domain_fork_particle
    rw [if_neg (not_le.mpr h)]
    refine ⟨_, rfl, ?_, ?_, ?_, ?_, ?_, ?_⟩
    · simp
    · rw [getD_set_append_self]
    · rw [getD_set_append_self]
    · rw [getD_set_append_set _ _ _ _ hp]
    · rw [getD_set_append_self]
    · intro hg
      rw [getD_set_append_self]
      show (s.particles.getD parent default).ID % 2 ^ 56
          + ((s.particles.getD parent default).Generation + 1) % 256 * 2 ^ 56 = _
      rw [hg]
      norm_num
      exact id_mask_lor_eq _

/-- Witness for claim C4 at a concrete one-particle state. -/
theorem domain_fork_particle_C4_witness :
    ∃ s2, domain_fork_particle fork_demo_state 0 = some (s2, 1) ∧
      (s2.particles.getD 1 default).Mass = 0 ∧
      (s2.particles.getD 1 default).ID = 5 % 2 ^ 56 + 1 * 2 ^ 56 := by
  have h := (domain_fork_particle_C4 fork_demo_state 0 (by decide)).2 (by decide)
  obtain ⟨s2, heq, hlen, hmass, hgenc, hgenp, hid, hfirst⟩ := h
  refine ⟨s2, by simpa [fork_demo_state] using heq, ?_, ?_⟩
  · simpa [fork_demo_state] using hmass
  · have := hid
    simp only [fork_demo_state] at this
    simpa using this

/-- Claim C10: after a fork the child entry equals the pre-fork parent entry
in every field except its identifier, its mass (set to zero) and its
generation (the incremented value); in particular the child PI still indexes
the parent auxiliary slot; the parent entry is unchanged except its
incremented generation counter, and every other entry is untouched. -/
theorem domain_fork_particle_C10 (s : fork_state) (parent : ℕ)
    (hp : parent < s.particles.length) (hroom : s.particles.length < s.MaxPart) :
    ∃ s2, domain_fork_particle s parent = some (s2, s.particles.length) ∧
      (s2.particles.getD s.particles.length default
        = { s.particles.getD parent default with
            ID := (s.particles.getD parent default).ID % 2 ^ 56
              + ((s.particles.getD parent default).Generation + 1) % 256 * 2 ^ 56,
            Mass := 0,
            Generation := ((s.particles.getD parent default).Generation + 1) % 256 }) ∧
      (s2.particles.getD parent default
        = { s.particles.getD parent default with
            Generation := ((s.particles.getD parent default).Generation + 1) % 256 }) ∧
      (∀ j, j < s.particles.length → j ≠ parent →
        s2.particles.getD j default = s.particles.getD j default) ∧
      (s2.particles.getD s.particles.length default).PI
        = (s.particles.getD parent default).PI := by
  unfold domain_fork_particle
  rw [if_neg (not_le.mpr hroom)]
  refine ⟨_, rfl, ?_, ?_, ?_, ?_⟩
  · rw [getD_set_append_self]
  · rw [getD_set_append_set _ _ _ _ hp]
  · intro j hj hne
    rw [getD_append_lt _ _ _ (by simpa using hj), getD_set_ne _ _ _ _ (by omega)]
  · rw [getD_set_append_self]

/-- Witness for claim C10 at a concrete one-particle state. -/
theorem domain_fork_particle_C10_witness :
    ∃ s2, domain_fork_particle fork_demo_state 0 = some (s2, 1) ∧
      (s2.particles.getD 1 default).PI = 7 := by
  obtain ⟨s2, heq, hc, hparent, hother, hpi⟩ :=
    domain_fork_particle_C10 fork_demo_state 0 (by decide) (by decide)
  refine ⟨s2, by simpa [fork_demo_state] using heq, ?_⟩
  have := hpi
  simp only [fork_demo_state] at this
  simpa using this

/-- The retry loop succeeds after exactly the failed attempts when the grown
factor never exceeds 1000 along the way, multiplying the factor by 1.3 once
per recovery. -/
theorem decomp_loop_success (fails : ℕ) : ∀ (f : ℚ) (r : ℕ),
    (∀ k, 1 ≤ k → k ≤ fails → f * (13 / 10) ^ k ≤ 1000) →
    domain_Decomposition_loop fails f r = .success (f * (13 / 10) ^ fails) (r + fails) := by
  induction fails with
  | zero =>
      intro f r h
      simp [domain_Decomposition_loop]
  | succ n ih =>
      intro f r h
      have h1 : f * (13 / 10) ≤ 1000 := by simpa using h 1 (by omega) (by omega)
      unfold domain_Decomposition_loop
      simp only
      rw [if_neg (not_lt.mpr h1)]
      rw [ih (f * (13 / 10)) (r + 1) ?hk]
      · congr 1
        · ring
        · omega
      case hk =>
        intro k hk1 hk2
        have h2 := h (k + 1) (by omega) (by omega)
        calc f * (13 / 10) * (13 / 10) ^ k = f * (13 / 10) ^ (k + 1) := by ring
        _ ≤ 1000 := h2

/-- The retry loop aborts at recovery m+1 when that recovery is the first
whose grown factor exceeds 1000, provided the failures last that long. -/
theorem decomp_loop_fatal : ∀ (m fails : ℕ) (f : ℚ) (r : ℕ),
    m < fails →
    (∀ k, 1 ≤ k → k ≤ m → f * (13 / 10) ^ k ≤ 1000) →
    1000 < f * (13 / 10) ^ (m + 1) →
    domain_Decomposition_loop fails f r = .fatal (f * (13 / 10) ^ (m + 1)) (r + m + 1) := by
  intro m
  induction m with
  | zero =>
      intro fails f r hm h hf
      obtain ⟨n, rfl⟩ : ∃ n, fails = n + 1 := ⟨fails - 1, by omega⟩
      unfold domain_Decomposition_loop
      simp only
      rw [if_pos (by rw [pow_one] at hf; exact hf)]
      rw [pow_one]
  | succ p ih =>
      intro fails f r hm h hf
      obtain ⟨n, rfl⟩ : ∃ n, fails = n + 1 := ⟨fails - 1, by omega⟩
      unfold domain_Decomposition_loop
      simp only
      have h1 : f * (13 / 10) ≤ 1000 := by simpa using h 1 (by omega) (by omega)
      rw [if_neg (not_lt.mpr h1)]
      have hrec := ih n (f * (13 / 10)) (r + 1) (by omega) ?_ ?_
      · rw [hrec]
        congr 1
        · ring
        · omega
      · intro k hk1 hk2
        have h2 := h (k + 1) (by omega) (by omega)
        calc f * (13 / 10) * (13 / 10) ^ k = f * (13 / 10) ^ (k + 1) := by ring
        _ ≤ 1000 := h2
      · calc (1000 : ℚ) < f * (13 / 10) ^ (p + 1 + 1) := hf
        _ = f * (13 / 10) * (13 / 10) ^ (p + 1) := by ring

/-- Claim C2 counterexample: starting from TopNodeAllocFactor = 1, ten
successive budget overflow recoveries do not abort the run: the driver loop
multiplies the factor by 1.3 ten times and then succeeds, so repeating the
recovery ten times is not fatal (the code aborts only once the factor
exceeds 1000). -/
theorem domain_Decomposition_C2_counterexample :
    domain_Decomposition_loop 10 1 0 = decomp_outcome.success ((13 / 10 : ℚ) ^ 10) 10 ∧
    ∀ f r, domain_Decomposition_loop 10 1 0 ≠ decomp_outcome.fatal f r := by
  have hbound : ∀ k, 1 ≤ k → k ≤ 10 → (1 : ℚ) * (13 / 10) ^ k ≤ 1000 := by
    intro k h1 h2
    interval_cases k <;> norm_num
  have h := decomp_loop_success 10 1 0 hbound
  constructor
  · simpa using h
  · intro f r hne
    rw [show (0 : ℕ) + 10 = 10 by rfl] at h
    rw [h] at hne
    exact decomp_outcome.noConfusion hne

/-- Claim C2 (amended): on a top node budget overflow the driver frees the
domain structures, multiplies TopNodeAllocFactor by exactly 1.3 and restarts
the whole decomposition; the run aborts fatally exactly when a grown factor
exceeds 1000 (endrun 781), not after a fixed count of ten recoveries. -/
theorem domain_Decomposition_loop_C2 (fails : ℕ) (f0 : ℚ) :
    ((∀ k, 1 ≤ k → k ≤ fails → f0 * (13 / 10) ^ k ≤ 1000) →
      domain_Decomposition_loop fails f0 0 = .success (f0 * (13 / 10) ^ fails) fails) ∧
    (∀ m, m < fails →
      (∀ k, 1 ≤ k → k ≤ m → f0 * (13 / 10) ^ k ≤ 1000) →
      1000 < f0 * (13 / 10) ^ (m + 1) →
      domain_Decomposition_loop fails f0 0 = .fatal (f0 * (13 / 10) ^ (m + 1)) (m + 1)) := by
  constructor
  · intro hall
    simpa using decomp_loop_success fails f0 0 hall
  · intro m hm hupto hover
    simpa using decomp_loop_fatal m fails f0 0 hm hupto hover

/-- Witness for claim C2: with an initial factor of 900 a single overflow
recovery already pushes the factor past 1000 and the run aborts; with an
initial factor of 1 two recoveries succeed. -/
theorem domain_Decomposition_loop_C2_witness :
    domain_Decomposition_loop 2 1 0 = decomp_outcome.success ((1 : ℚ) * (13 / 10) ^ 2) 2 ∧
    domain_Decomposition_loop 3 900 0 = decomp_outcome.fatal ((900 : ℚ) * (13 / 10) ^ 1) 1 := by
  constructor
  · exact (domain_Decomposition_loop_C2 2 1).1 (by intro k h1 h2; interval_cases k <;> norm_num)
  · exact (domain_Decomposition_loop_C2 3 900).2 0 (by omega) (by intro k h1 h2; omega) (by norm_num)

/-- A running integer maximum exceeds m exactly when the seed or one of the
entries does. -/
theorem foldl_max_lt_iff (l : List ℤ) : ∀ (a m : ℤ),
    m < l.foldl max a ↔ m < a ∨ ∃ x ∈ l, m < x := by
  induction l with
  | nil => intro a m; simp
  | cons x xs ih =>
      intro a m
      simp only [List.foldl_cons, ih (max a x) m, lt_max_iff, List.mem_cons]
      constructor
      · rintro ((h | h) | ⟨y, hy, hmy⟩)
        · exact Or.inl h
        · exact Or.inr ⟨x, Or.inl rfl, h⟩
        · exact Or.inr ⟨y, Or.inr hy, hmy⟩
      · rintro (h | ⟨y, (rfl | hy), hmy⟩)
        · exact Or.inl (Or.inl h)
        · exact Or.inl (Or.inr hmy)
        · exact Or.inr ⟨y, hy, hmy⟩

/-- The memory check fires exactly when some task load exceeds MaxPart. -/
theorem check_memory_bound_iff (startL endL : List ℕ) (counts : List ℤ)
    (odf ntask : ℕ) (maxPart : ℤ) (hmp : 0 ≤ maxPart) :
    domain_check_memory_bound startL endL counts odf ntask maxPart = 1 ↔
      ∃ ta, ta < ntask ∧ maxPart < rank_load startL endL counts odf ta := by
  unfold domain_check_memory_bound
  simp only
  constructor
  · intro h
    by_cases hc : maxPart <
        ((List.range ntask).map (fun ta => rank_load startL endL counts odf ta)).foldl max 0
    · rcases (foldl_max_lt_iff _ _ _).mp hc with h0 | ⟨x, hx, hmx⟩
      · omega
      · obtain ⟨ta, hta, rfl⟩ := List.mem_map.mp hx
        exact ⟨ta, List.mem_range.mp hta, hmx⟩
    · rw [if_neg hc] at h
      omega
  · rintro ⟨ta, hta, hload⟩
    rw [if_pos]
    exact (foldl_max_lt_iff _ _ _).mpr
      (Or.inr ⟨_, List.mem_map.mpr ⟨ta, List.mem_range.mpr hta, rfl⟩, hload⟩)

/-- The memory check is 0 or 1. -/
theorem check_memory_bound_cases (startL endL : List ℕ) (counts : List ℤ)
    (odf ntask : ℕ) (maxPart : ℤ) :
    domain_check_memory_bound startL endL counts odf ntask maxPart = 0 ∨
    domain_check_memory_bound startL endL counts odf ntask maxPart = 1 := by
  unfold domain_check_memory_bound
  simp only
  by_cases h : maxPart <
      ((List.range ntask).map (fun ta => rank_load startL endL counts odf ta)).foldl max 0
  · rw [if_pos h]; right; rfl
  · rw [if_neg h]; left; rfl

/-- Claim C7: domain_decompose switches from the work balanced split to the
load balanced split exactly when, under the work balanced assignment, some
task has a particle load above MaxPart; and it aborts fatally exactly when
the load balanced assignment also has a task above MaxPart. -/
theorem domain_decompose_strategy_C7 (startW endW startL endL : List ℕ)
    (counts : List ℤ) (odf ntask : ℕ) (maxPart : ℤ) (hmp : 0 ≤ maxPart) :
    (domain_decompose_strategy startW endW startL endL counts odf ntask maxPart
        ≠ split_choice.workSplit ↔
      ∃ ta, ta < ntask ∧ maxPart < rank_load startW endW counts odf ta) ∧
    (domain_decompose_strategy startW endW startL endL counts odf ntask maxPart
        = split_choice.fatalMemory ↔
      ((∃ ta, ta < ntask ∧ maxPart < rank_load startW endW counts odf ta) ∧
       (∃ ta, ta < ntask ∧ maxPart < rank_load startL endL counts odf ta))) := by
  have hW := check_memory_bound_iff startW endW counts odf ntask maxPart hmp
  have hL := check_memory_bound_iff startL endL counts odf ntask maxPart hmp
  have hWc := check_memory_bound_cases startW endW counts odf ntask maxPart
  have hLc := check_memory_bound_cases startL endL counts odf ntask maxPart
  unfold domain_decompose_strategy
  constructor
  · constructor
    · intro hne
      rcases hWc with h0 | h1
      · rw [if_pos h0] at hne; exact absurd rfl hne
      · exact hW.mp h1
    · intro hex
      have h1 : domain_check_memory_bound startW endW counts odf ntask maxPart = 1 := hW.mpr hex
      rw [if_neg (by omega)]
      by_cases h2 : domain_check_memory_bound startL endL counts odf ntask maxPart = 0
      · rw [if_pos h2]; intro hc; exact split_choice.noConfusion hc
      · rw [if_neg h2]; intro hc; exact split_choice.noConfusion hc
  · constructor
    · intro hfatal
      rcases hWc with h0 | h1
      · rw [if_pos h0] at hfatal; exact absurd hfatal (by intro hc; exact split_choice.noConfusion hc)
      · rcases hLc with hl0 | hl1
        · rw [if_neg (by omega), if_pos hl0] at hfatal
          exact absurd hfatal (by intro hc; exact split_choice.noConfusion hc)
        · exact ⟨hW.mp h1, hL.mp hl1⟩
    · rintro ⟨hw, hl⟩
      have h1 := hW.mpr hw
      have h2 := hL.mpr hl
      rw [if_neg (by omega), if_neg (by omega)]

/-- Witness for claim C7: two tasks, one segment each over three leaves with
counts 4, 1 and 9; with MaxPart 5 the work assignment (leaf ranges 0..1 and
2..2) puts load 9 on task 1, above the bound. -/
theorem domain_decompose_strategy_C7_witness :
    (domain_decompose_strategy [0, 2] [1, 2] [0, 1] [0, 2] [4, 1, 9] 1 2 5
        ≠ split_choice.workSplit ↔
      ∃ ta, ta < 2 ∧ (5 : ℤ) < rank_load [0, 2] [1, 2] [4, 1, 9] 1 ta) ∧
    (domain_decompose_strategy [0, 2] [1, 2] [0, 1] [0, 2] [4, 1, 9] 1 2 5
        = split_choice.fatalMemory ↔
      ((∃ ta, ta < 2 ∧ (5 : ℤ) < rank_load [0, 2] [1, 2] [4, 1, 9] 1 ta) ∧
       (∃ ta, ta < 2 ∧ (5 : ℤ) < rank_load [0, 1] [0, 2] [4, 1, 9] 1 ta))) :=
  domain_decompose_strategy_C7 [0, 2] [1, 2] [0, 1] [0, 2] [4, 1, 9] 1 2 5 (by norm_num)

/-- One more leaf extends a leading sum by that leaf cost. -/
theorem prefixSum_succ (W : List ℚ) (n : ℕ) :
    prefixSum W (n + 1) = prefixSum W n + W.getD n 0 := by
  unfold prefixSum
  rw [List.take_succ, List.sum_append]
  congr 1
  cases h : W[n]? with
  | none => simp [List.getD, h]
  | some a => simp [List.getD, h]

/-- The segment end returned by the inner loop never moves left. -/
theorem splitGrow_ge (W : List ℚ) (nd ncpu i : ℕ) (wb wa wab : ℚ) : ∀ (e : ℕ) (w : ℚ),
    e ≤ (splitGrow W nd ncpu i wb wa wab e w).1 := by
  intro e w
  induction e, w using splitGrow.induct W nd ncpu i wb wa wab with
  | case1 e w hcond h ih =>
      rw [splitGrow, if_pos hcond, dif_pos h]
      omega
  | case2 e w hcond h => rw [splitGrow, if_pos hcond, dif_neg h]
  | case3 e w hcond => rw [splitGrow, if_neg hcond]

/-- The inner loop respects the leaves-left versus segments-left guard: the
returned end never exceeds nd - ncpu + i, provided it starts below it. -/
theorem splitGrow_le_cap (W : List ℚ) (nd ncpu i : ℕ) (wb wa wab : ℚ)
    (hin : i < ncpu) (hnd : ncpu ≤ nd) : ∀ (e : ℕ) (w : ℚ),
    e ≤ nd - ncpu + i → (splitGrow W nd ncpu i wb wa wab e w).1 ≤ nd - ncpu + i := by
  intro e w
  induction e, w using splitGrow.induct W nd ncpu i wb wa wab with
  | case1 e w hcond h ih =>
      intro he
      rw [splitGrow, if_pos hcond, dif_pos h]
      exact ih (by omega)
  | case2 e w hcond h =>
      intro he
      rw [splitGrow, if_pos hcond, dif_neg h]
      simpa using he
  | case3 e w hcond =>
      intro he
      rw [splitGrow, if_neg hcond]
      simpa using he

/-- The cost accumulated by the inner loop is the sum of the leaf costs from
its first leaf through its final end. -/
theorem splitGrow_w (W : List ℚ) (nd ncpu i : ℕ) (wb wa wab : ℚ) : ∀ (e : ℕ) (w : ℚ),
    (splitGrow W nd ncpu i wb wa wab e w).2
      = w + (prefixSum W ((splitGrow W nd ncpu i wb wa wab e w).1 + 1)
          - prefixSum W (e + 1)) := by
  intro e w
  induction e, w using splitGrow.induct W nd ncpu i wb wa wab with
  | case1 e w hcond h ih =>
      rw [splitGrow, if_pos hcond, dif_pos h]
      rw [ih, prefixSum_succ W (e + 1)]
      ring
  | case2 e w hcond h =>
      rw [splitGrow, if_pos hcond, dif_neg h]
      simp
  | case3 e w hcond =>
      rw [splitGrow, if_neg hcond]
      simp

/-- Every leaf the inner loop passed was taken while the while condition
held: the accumulated cost was still below the target multiple, or this is
the last segment and leaves remained. -/
theorem splitGrow_mid (W : List ℚ) (nd ncpu i : ℕ) (wb wa wab : ℚ) : ∀ (e : ℕ) (w : ℚ),
    ∀ x, e ≤ x → x < (splitGrow W nd ncpu i wb wa wab e w).1 →
      (w + (prefixSum W (x + 1) - prefixSum W (e + 1)) + wb < wa + wab) ∨
      (i = ncpu - 1 ∧ x < nd - 1) := by
  intro e w
  induction e, w using splitGrow.induct W nd ncpu i wb wa wab with
  | case1 e w hcond h ih =>
      intro x hex hx
      rw [splitGrow, if_pos hcond, dif_pos h] at hx
      rcases Nat.eq_or_lt_of_le hex with rfl | hlt
      · rcases hcond with h1 | h2
        · left
          simpa using h1
        · right
          exact h2
      · rcases ih x (by omega) hx with h1 | h2
        · left
          have heq : w + W.getD (e + 1) 0 + (prefixSum W (x + 1) - prefixSum W (e + 1 + 1))
              = w + (prefixSum W (x + 1) - prefixSum W (e + 1)) := by
            rw [prefixSum_succ W (e + 1)]
            ring
          rw [heq] at h1
          exact h1
        · right
          exact h2
  | case2 e w hcond h =>
      intro x hex hx
      rw [splitGrow, if_pos hcond, dif_neg h] at hx
      simp at hx
      omega
  | case3 e w hcond =>
      intro x hex hx
      rw [splitGrow, if_neg hcond] at hx
      simp at hx
      omega

/-- When the inner loop stops, either the while condition failed (the target
multiple is reached and this is not an unfinished last segment) or the guard
failed (no leaves to spare). -/
theorem splitGrow_exit (W : List ℚ) (nd ncpu i : ℕ) (wb wa wab : ℚ) : ∀ (e : ℕ) (w : ℚ),
    (¬((splitGrow W nd ncpu i wb wa wab e w).2 + wb < wa + wab) ∧
      ¬(i = ncpu - 1 ∧ (splitGrow W nd ncpu i wb wa wab e w).1 < nd - 1)) ∨
    ¬(ncpu - i < nd - (splitGrow W nd ncpu i wb wa wab e w).1) := by
  intro e w
  induction e, w using splitGrow.induct W nd ncpu i wb wa wab with
  | case1 e w hcond h ih =>
      rw [splitGrow, if_pos hcond, dif_pos h]
      exact ih
  | case2 e w hcond h =>
      rw [splitGrow, if_pos hcond, dif_neg h]
      right
      simpa using h
  | case3 e w hcond =>
      rw [splitGrow, if_neg hcond]
      left
      exact ⟨fun hA => hcond (Or.inl (by simpa using hA)),
             fun hB => hcond (Or.inr (by simpa using hB))⟩

/-- For the last segment the inner loop always runs to the last leaf. -/
theorem splitGrow_last (W : List ℚ) (nd ncpu i : ℕ) (wb wa wab : ℚ)
    (hn : 1 ≤ ncpu) (hi : i = ncpu - 1) (hnd : ncpu ≤ nd) : ∀ (e : ℕ) (w : ℚ),
    e ≤ nd - 1 → (splitGrow W nd ncpu i wb wa wab e w).1 = nd - 1 := by
  intro e w
  induction e, w using splitGrow.induct W nd ncpu i wb wa wab with
  | case1 e w hcond h ih =>
      intro he
      rw [splitGrow, if_pos hcond, dif_pos h]
      exact ih (by omega)
  | case2 e w hcond h =>
      intro he
      rw [splitGrow, if_pos hcond, dif_neg h]
      simp
      omega
  | case3 e w hcond =>
      intro he
      rw [splitGrow, if_neg hcond]
      simp
      by_contra hne
      exact hcond (Or.inr ⟨hi, by omega⟩)

/-- Full characterization of the outer split loop from segment i on: it emits
one contiguous segment per remaining cpu, every segment respects the
leaves-left guard, every extension happened strictly below the next multiple
of the average, every segment closes at the guard cap or at the multiple, and
the last segment runs to the last leaf. -/
theorem splitOuter_spec (W : List ℚ) (nd ncpu : ℕ) (wa : ℚ) :
    ∀ (i start : ℕ) (wb wab : ℚ),
    nd = W.length → ncpu ≤ nd → i < ncpu →
    wb = prefixSum W start → wab = (i : ℚ) * wa → start ≤ nd - ncpu + i →
    (splitOuter W nd ncpu wa i start wb wab).length = ncpu - i ∧
    ((splitOuter W nd ncpu wa i start wb wab).getD 0 (0, 0)).1 = start ∧
    (∀ k, k + 1 < ncpu - i →
      ((splitOuter W nd ncpu wa i start wb wab).getD (k + 1) (0, 0)).1
        = ((splitOuter W nd ncpu wa i start wb wab).getD k (0, 0)).2 + 1) ∧
    (∀ k, k < ncpu - i →
      ((splitOuter W nd ncpu wa i start wb wab).getD k (0, 0)).1
        ≤ ((splitOuter W nd ncpu wa i start wb wab).getD k (0, 0)).2 ∧
      ((splitOuter W nd ncpu wa i start wb wab).getD k (0, 0)).2 ≤ nd - ncpu + (i + k)) ∧
    (∀ k, i + k + 1 < ncpu → ∀ x,
      ((splitOuter W nd ncpu wa i start wb wab).getD k (0, 0)).1 ≤ x →
      x < ((splitOuter W nd ncpu wa i start wb wab).getD k (0, 0)).2 →
      prefixSum W (x + 1) < ((i + k + 1 : ℕ) : ℚ) * wa) ∧
    (∀ k, i + k + 1 < ncpu →
      ((splitOuter W nd ncpu wa i start wb wab).getD k (0, 0)).2 = nd - ncpu + (i + k) ∨
      ((i + k + 1 : ℕ) : ℚ) * wa
        ≤ prefixSum W (((splitOuter W nd ncpu wa i start wb wab).getD k (0, 0)).2 + 1)) ∧
    ((splitOuter W nd ncpu wa i start wb wab).getD (ncpu - i - 1) (0, 0)).2 = nd - 1 := by
  intro i start wb wab
  induction i, start, wb, wab using splitOuter.induct W nd ncpu wa with
  | case1 i start wb wab h ih =>
      intro hnd hcn hi hwb hwab hstart
      obtain ⟨e2, w2, hsg⟩ :
          ∃ e2 w2, splitGrow W nd ncpu i wb wa wab start (W.getD start 0) = (e2, w2) :=
        ⟨_, _, rfl⟩
      simp only [hsg] at ih
      rw [splitOuter, dif_pos h]
      simp only [hsg]
      have hge := splitGrow_ge W nd ncpu i wb wa wab start (W.getD start 0)
      rw [hsg] at hge
      simp only at hge
      have hcap := splitGrow_le_cap W nd ncpu i wb wa wab h hcn start (W.getD start 0) hstart
      rw [hsg] at hcap
      simp only at hcap
      have hw := splitGrow_w W nd ncpu i wb wa wab start (W.getD start 0)
      rw [hsg] at hw
      simp only at hw
      have hwb2 : wb + w2 = prefixSum W (e2 + 1) := by
        rw [hw, hwb, prefixSum_succ W start]
        ring
      by_cases hlast : i + 1 < ncpu
      · have hwab2 : wab + wa = ((i + 1 : ℕ) : ℚ) * wa := by
          rw [hwab]
          push_cast
          ring
        obtain ⟨L1, L2, L3, L4, L5, L6, L7⟩ :=
          ih hnd hcn hlast hwb2 hwab2 (by omega)
        refine ⟨?_, ?_, ?_, ?_, ?_, ?_, ?_⟩
        · simp [L1]
          omega
        · simp
        · intro k hk
          match k with
          | 0 =>
              simp only [List.getD_cons_succ, List.getD_cons_zero]
              rw [L2]
          | Nat.succ k2 =>
              simp only [List.getD_cons_succ]
              exact L3 k2 (by omega)
        · intro k hk
          match k with
          | 0 =>
              simp only [List.getD_cons_zero]
              exact ⟨hge, by omega⟩
          | Nat.succ k2 =>
              simp only [List.getD_cons_succ]
              have h4 := L4 k2 (by omega)
              refine ⟨h4.1, ?_⟩
              have : i + 1 + k2 = i + (k2 + 1) := by omega
              rw [← this]
              exact h4.2
        · intro k hk x hx1 hx2
          match k with
          | 0 =>
              simp only [List.getD_cons_zero] at hx1 hx2
              have hm := splitGrow_mid W nd ncpu i wb wa wab start (W.getD start 0) x hx1
                (by rw [hsg]; simpa using hx2)
              rcases hm with h1 | h2
              · have heq : W.getD start 0 + (prefixSum W (x + 1) - prefixSum W (start + 1)) + wb
                    = prefixSum W (x + 1) := by
                  rw [hwb, prefixSum_succ W start]
                  ring
                rw [heq] at h1
                have : ((i + 0 + 1 : ℕ) : ℚ) * wa = wa + (i : ℚ) * wa := by
                  push_cast
                  ring
                rw [this]
                rw [hwab] at h1
                linarith
              · omega
          | Nat.succ k2 =>
              simp only [List.getD_cons_succ] at hx1 hx2
              have h5 := L5 k2 (by omega) x hx1 hx2
              have : i + 1 + k2 + 1 = i + (k2 + 1) + 1 := by omega
              rw [this] at h5
              exact h5
        · intro k hk
          match k with
          | 0 =>
              simp only [List.getD_cons_zero]
              have hx := splitGrow_exit W nd ncpu i wb wa wab start (W.getD start 0)
              rw [hsg] at hx
              simp only at hx
              rcases hx with ⟨hx1, hx2⟩ | hx3
              · right
                have hple : wa + wab ≤ w2 + wb := not_lt.mp hx1
                have hcast : ((i + 0 + 1 : ℕ) : ℚ) * wa = wa + (i : ℚ) * wa := by
                  push_cast
                  ring
                rw [hcast, ← hwab]
                calc wa + wab ≤ w2 + wb := hple
                _ = prefixSum W (e2 + 1) := by rw [← hwb2]; ring
              · left
                omega
          | Nat.succ k2 =>
              simp only [List.getD_cons_succ]
              have h6 := L6 k2 (by omega)
              have heq2 : i + 1 + k2 = i + (k2 + 1) := by omega
              rw [heq2] at h6
              exact h6
        · have hidx : ncpu - i - 1 = (ncpu - (i + 1) - 1) + 1 := by omega
          rw [hidx]
          simp only [List.getD_cons_succ]
          exact L7
      · have hieq : i = ncpu - 1 := by omega
        have hlastleaf : e2 = nd - 1 := by
          have := splitGrow_last W nd ncpu i wb wa wab (by omega) hieq hcn start
            (W.getD start 0) (by omega)
          rw [hsg] at this
          simpa using this
        rw [splitOuter, dif_neg hlast]
        refine ⟨?_, ?_, ?_, ?_, ?_, ?_, ?_⟩
        · simp
          omega
        · simp
        · intro k hk
          omega
        · intro k hk
          have hk0 : k = 0 := by omega
          subst hk0
          simp only [List.getD_cons_zero]
          constructor
          · omega
          · omega
        · intro k hk
          omega
        · intro k hk
          omega
        · have hidx : ncpu - i - 1 = 0 := by omega
          rw [hidx]
          simp only [List.getD_cons_zero]
          exact hlastleaf
  | case2 i start wb wab h =>
      intro hnd hcn hi hwb hwab hstart
      exact absurd hi h

/-- Claim C6: the work balanced split walks the ndomain leaves in order; each
segment keeps extending exactly while its accumulated cost plus the cost
already committed is below the next multiple of the global average, extends
only while the remaining leaves outnumber the remaining segments (so end i is
at most ndomain - ncpu + i), closes at that guard cap or once the multiple is
reached, and the final segment always extends to the last leaf, absorbing all
residue. -/
theorem domain_findSplit_work_balanced_C6 (W : List ℚ) (ncpu : ℕ)
    (h1 : 1 ≤ ncpu) (h2 : ncpu ≤ W.length) :
    (domain_findSplit_work_balanced W ncpu).length = ncpu ∧
    ((domain_findSplit_work_balanced W ncpu).getD 0 (0, 0)).1 = 0 ∧
    (∀ k, k + 1 < ncpu →
      ((domain_findSplit_work_balanced W ncpu).getD (k + 1) (0, 0)).1
        = ((domain_findSplit_work_balanced W ncpu).getD k (0, 0)).2 + 1) ∧
    (∀ k, k < ncpu →
      ((domain_findSplit_work_balanced W ncpu).getD k (0, 0)).1
        ≤ ((domain_findSplit_work_balanced W ncpu).getD k (0, 0)).2 ∧
      ((domain_findSplit_work_balanced W ncpu).getD k (0, 0)).2 ≤ W.length - ncpu + k) ∧
    (∀ k, k + 1 < ncpu → ∀ x,
      ((domain_findSplit_work_balanced W ncpu).getD k (0, 0)).1 ≤ x →
      x < ((domain_findSplit_work_balanced W ncpu).getD k (0, 0)).2 →
      prefixSum W (x + 1) < ((k + 1 : ℕ) : ℚ) * (W.sum / (ncpu : ℚ))) ∧
    (∀ k, k + 1 < ncpu →
      ((domain_findSplit_work_balanced W ncpu).getD k (0, 0)).2 = W.length - ncpu + k ∨
      ((k + 1 : ℕ) : ℚ) * (W.sum / (ncpu : ℚ))
        ≤ prefixSum W (((domain_findSplit_work_balanced W ncpu).getD k (0, 0)).2 + 1)) ∧
    ((domain_findSplit_work_balanced W ncpu).getD (ncpu - 1) (0, 0)).2 = W.length - 1 := by
  have hs := splitOuter_spec W W.length ncpu (W.sum / (ncpu : ℚ)) 0 0 0 0 rfl h2 (by omega)
    (by simp [prefixSum]) (by simp) (by omega)
  unfold domain_findSplit_work_balanced
  obtain ⟨L1, L2, L3, L4, L5, L6, L7⟩ := hs
  refine ⟨by simpa using L1, L2, ?_, ?_, ?_, ?_, by simpa using L7⟩
  · intro k hk
    exact L3 k (by omega)
  · intro k hk
    have h4 := L4 k (by omega)
    simpa using h4
  · intro k hk x hx1 hx2
    have h5 := L5 k (by omega) x hx1 hx2
    simpa using h5
  · intro k hk
    have h6 := L6 k (by omega)
    simpa using h6

/-- Witness for claim C6 on four unit cost leaves split over two cpus. -/
theorem domain_findSplit_work_balanced_C6_witness :
    (domain_findSplit_work_balanced [1, 1, 1, 1] 2).length = 2 ∧
    ((domain_findSplit_work_balanced [1, 1, 1, 1] 2).getD 1 (0, 0)).2 = 3 := by
  obtain ⟨L1, L2, L3, L4, L5, L6, L7⟩ :=
    domain_findSplit_work_balanced_C6 [1, 1, 1, 1] 2 (by decide) (by decide)
  refine ⟨L1, ?_⟩
  simpa using L7

/-- Reading inside the kept range of a truncation is unchanged (any fallback). -/
theorem getD_take_lt {α : Type} (l : List α) (n j : ℕ) (d : α) (h : j < n) :
    (l.take n).getD j d = l.getD j d := by
  simp [List.getD, List.getElem?_take, h]

/-- Reading an updated list at the updated index (any fallback). -/
theorem getD_set_eq {α : Type} (l : List α) (a : α) (i : ℕ) (d : α) (h : i < l.length) :
    (l.set i a).getD i d = a := by
  simp [List.getD, List.getElem?_set_self, h]

/-- Reading an updated list away from the updated index (any fallback). -/
theorem getD_set_neq {α : Type} (l : List α) (a : α) (i j : ℕ) (d : α) (h : i ≠ j) :
    (l.set i a).getD j d = l.getD j d := by
  simp [List.getD, List.getElem?_set_ne, h]

/-- Truncating below an update forgets the update. -/
theorem take_set_of_le {α : Type} (l : List α) (j n : ℕ) (v : α) (h : n ≤ j) :
    (l.set j v).take n = l.take n := by
  apply List.ext_getElem?
  intro m
  rw [List.getElem?_take, List.getElem?_take]
  by_cases hmn : m < n
  · rw [if_pos hmn, if_pos hmn, List.getElem?_set_ne (by omega)]
  · rw [if_neg hmn, if_neg hmn]

/-- Truncating above an update keeps the update. -/
theorem take_set_of_lt {α : Type} (l : List α) (j n : ℕ) (v : α) (h : j < n) :
    (l.set j v).take n = (l.take n).set j v := by
  apply List.ext_getElem?
  intro m
  rw [List.getElem?_take, List.getElem?_set, List.getElem?_set]
  by_cases hjm : j = m
  · subst hjm
    rw [if_pos rfl, if_pos rfl]
    by_cases hjl : j < l.length
    · rw [if_pos hjl, if_pos (show j < (List.take n l).length by
        simp only [List.length_take]; omega), if_pos h]
    · rw [if_neg hjl, if_neg (show ¬ j < (List.take n l).length by
        simp only [List.length_take]; omega)]
      simp
  · rw [if_neg hjm, if_neg hjm, List.getElem?_take]

/-- Moving an element from front to back across a shared middle. -/
theorem cons_append_singleton_perm {α : Type} (d : List α) (a b : α) :
    (a :: (d ++ [b])).Perm (b :: (d ++ [a])) := by
  calc a :: (d ++ [b]) ~ a :: (b :: d) := List.Perm.cons a (List.perm_append_singleton b d)
  _ ~ b :: (a :: d) := List.Perm.swap b a d
  _ ~ b :: (d ++ [a]) := List.Perm.cons b (List.perm_append_singleton a d).symm

/-- Overwriting one entry exchanges it against the new value, as multisets. -/
theorem set_append_getD_perm {α : Type} [Inhabited α] (l : List α) (i : ℕ) (v : α)
    (h : i < l.length) :
    ((l.set i v) ++ [l.getD i default]).Perm (l ++ [v]) := by
  rw [List.set_eq_take_append_cons_drop, if_pos h]
  rw [List.getD_eq_getElem l default h]
  calc (List.take i l ++ v :: List.drop (i + 1) l) ++ [l[i]]
      = List.take i l ++ (v :: (List.drop (i + 1) l ++ [l[i]])) := by simp
  _ ~ List.take i l ++ (l[i] :: (List.drop (i + 1) l ++ [v])) :=
      List.Perm.append_left _ (cons_append_singleton_perm _ _ _)
  _ = l ++ [v] := by
      rw [← List.cons_append, ← List.append_assoc, ← List.drop_eq_getElem_cons h,
        List.take_append_drop]

/-- A nonempty list is its truncation plus its last element. -/
theorem eq_take_concat_getD {α : Type} [Inhabited α] (l : List α) (h : 0 < l.length) :
    l = l.take (l.length - 1) ++ [l.getD (l.length - 1) default] := by
  conv_lhs => rw [← List.take_append_drop (l.length - 1) l]
  congr 1
  rw [List.drop_eq_getElem_cons (show l.length - 1 < l.length by omega)]
  rw [List.drop_eq_nil_of_le (by omega)]
  rw [List.getD_eq_getElem l default (by omega)]

/-- The end swap removal pattern: writing the last element over index j and
dropping the last slot removes exactly the entry at j, as multisets. -/
theorem swap_remove_perm {α : Type} [Inhabited α] (l : List α) (j : ℕ) (h : j < l.length) :
    (l.getD j default ::
      (l.set j (l.getD (l.length - 1) default)).take (l.length - 1)).Perm l := by
  by_cases hj : j = l.length - 1
  · subst hj
    rw [take_set_of_le _ _ _ _ (le_refl _)]
    calc l.getD (l.length - 1) default :: List.take (l.length - 1) l
        ~ List.take (l.length - 1) l ++ [l.getD (l.length - 1) default] :=
          (List.perm_append_singleton _ _).symm
    _ = l := (eq_take_concat_getD l (by omega)).symm
  · have hjlt : j < l.length - 1 := by omega
    rw [take_set_of_lt _ _ _ _ hjlt]
    have ht : (List.take (l.length - 1) l).getD j default = l.getD j default :=
      getD_take_lt _ _ _ _ hjlt
    have hlen2 : j < (List.take (l.length - 1) l).length := by
      simp only [List.length_take]
      omega
    calc l.getD j default :: ((List.take (l.length - 1) l).set j (l.getD (l.length - 1) default))
        ~ ((List.take (l.length - 1) l).set j (l.getD (l.length - 1) default))
            ++ [l.getD j default] := (List.perm_append_singleton _ _).symm
    _ = ((List.take (l.length - 1) l).set j (l.getD (l.length - 1) default))
            ++ [(List.take (l.length - 1) l).getD j default] := by rw [ht]
    _ ~ (List.take (l.length - 1) l) ++ [l.getD (l.length - 1) default] :=
          set_append_getD_perm _ _ _ hlen2
    _ = l := (eq_take_concat_getD l (by omega)).symm

/-- Removing a zero mass tail entry removes exactly it, as multisets. -/
theorem gcRemoveTail_perm (l : List particle_data) (i : ℕ) (h : i < l.length) :
    (l.getD i default :: gcRemoveTail l i).Perm l := by
  unfold gcRemoveTail
  exact swap_remove_perm l i h

/-- Removing a zero mass gas entry removes exactly it, as multisets. -/
theorem gcRemoveGas_perm (l : List particle_data) (ns i : ℕ)
    (hi : i < l.length) (hns : ns - 1 < l.length) :
    (l.getD i default :: gcRemoveGas l ns i).Perm l := by
  unfold gcRemoveGas
  set m := l.set i (l.getD (ns - 1) default) with hm
  have hmlen : m.length = l.length := by rw [hm]; simp
  have hg : m.getD (ns - 1) default = l.getD (ns - 1) default := by
    by_cases hins : i = ns - 1
    · rw [hm, hins]
      exact getD_set_eq _ _ _ _ (by omega)
    · rw [hm]
      exact getD_set_neq _ _ _ _ _ hins
  have G1 := swap_remove_perm m (ns - 1) (by omega)
  rw [hg, hmlen] at G1
  have G2 := set_append_getD_perm l i (l.getD (ns - 1) default) hi
  rw [← hm] at G2
  set R := (m.set (ns - 1) (m.getD (l.length - 1) default)).take (l.length - 1) with hR
  have hfull : (l.getD (ns - 1) default :: l.getD i default :: R)
      ~ (l.getD (ns - 1) default :: l) := by
    calc l.getD (ns - 1) default :: l.getD i default :: R
        ~ l.getD i default :: l.getD (ns - 1) default :: R :=
          List.Perm.swap (l.getD i default) (l.getD (ns - 1) default) R
    _ ~ l.getD i default :: m := List.Perm.cons _ G1
    _ ~ m ++ [l.getD i default] := (List.perm_append_singleton _ _).symm
    _ ~ l ++ [l.getD (ns - 1) default] := G2
    _ ~ l.getD (ns - 1) default :: l := List.perm_append_singleton _ _
  exact hfull.cons_inv

/-- Length of the gas removal update. -/
theorem gcRemoveGas_length (l : List particle_data) (ns i : ℕ) :
    (gcRemoveGas l ns i).length = l.length - 1 := by
  simp only [gcRemoveGas, List.length_take, List.length_set]
  omega

/-- Length of the tail removal update. -/
theorem gcRemoveTail_length (l : List particle_data) (i : ℕ) :
    (gcRemoveTail l i).length = l.length - 1 := by
  simp only [gcRemoveTail, List.length_take, List.length_set]
  omega

/-- Pointwise reading of the gas removal update. -/
theorem gcRemoveGas_getD (l : List particle_data) (ns i j : ℕ)
    (hns : ns ≤ l.length) (hi : i < ns) (hj : j < l.length - 1) :
    (gcRemoveGas l ns i).getD j default =
      if j = ns - 1 then l.getD (l.length - 1) default
      else if j = i then l.getD (ns - 1) default
      else l.getD j default := by
  unfold gcRemoveGas
  rw [getD_take_lt _ _ _ _ hj]
  by_cases h1 : j = ns - 1
  · rw [if_pos h1]
    subst h1
    rw [getD_set_eq _ _ _ _ (by simp only [List.length_set]; omega)]
    rw [getD_set_neq _ _ _ _ _ (by omega)]
  · rw [if_neg h1]
    rw [getD_set_neq _ _ _ _ _ (by omega)]
    by_cases h2 : j = i
    · rw [if_pos h2]
      subst h2
      rw [getD_set_eq _ _ _ _ (by omega)]
    · rw [if_neg h2]
      rw [getD_set_neq _ _ _ _ _ (by omega)]

/-- Pointwise reading of the tail removal update. -/
theorem gcRemoveTail_getD (l : List particle_data) (i j : ℕ)
    (hi : i < l.length) (hj : j < l.length - 1) :
    (gcRemoveTail l i).getD j default =
      if j = i then l.getD (l.length - 1) default else l.getD j default := by
  unfold gcRemoveTail
  rw [getD_take_lt _ _ _ _ hj]
  by_cases h2 : j = i
  · rw [if_pos h2]
    subst h2
    rw [getD_set_eq _ _ _ _ (by omega)]
  · rw [if_neg h2]
    rw [getD_set_neq _ _ _ _ _ (by omega)]

/-- Reading a counter table after decrementing one bin. -/
theorem decAt_getD (c : List ℤ) (b b2 : ℕ) (hb : b < c.length) :
    (decAt c b).getD b2 0 = c.getD b2 0 - (if b2 = b then 1 else 0) := by
  unfold decAt
  by_cases h : b2 = b
  · subst h
    rw [getD_set_eq _ _ _ _ hb, if_pos rfl]
  · rw [getD_set_neq _ _ _ _ _ (by omega), if_neg h]
    ring

/-- Length of a counter table after decrementing one bin. -/
theorem decAt_length (c : List ℤ) (b : ℕ) : (decAt c b).length = c.length := by
  simp [decAt]

/-- Reading inside the bounds is a member (any fallback in bounds). -/
theorem getD_mem_of_lt {α : Type} [Inhabited α] (l : List α) (j : ℕ) (h : j < l.length) :
    l.getD j default ∈ l := by
  rw [List.getD_eq_getElem l default h]
  exact List.getElem_mem h

/-- Full characterization of the elimination loop: starting at index i with
no zero mass entry before i, in a state whose gas region is exactly the
prefix, the loop ends with no zero mass entry at all, the surviving entries
are exactly the nonzero mass entries (as a multiset), the gas region is
again exactly the prefix, the removed count matches the zero mass count, and
every timebin counter drops by the number of zero mass entries in its bin. -/
theorem gcAllLoop_spec : ∀ (s : gc_state) (i : ℕ),
    s.N_sph_slots ≤ s.particles.length →
    (∀ j, j < s.particles.length →
      ((s.particles.getD j default).Ptype = 0 ↔ j < s.N_sph_slots)) →
    (∀ q ∈ s.particles, q.TimeBin < s.TimeBinCount.length) →
    (∀ q ∈ s.particles, q.Ptype = 0 → q.TimeBin < s.TimeBinCountSph.length) →
    (∀ j, j < i → ¬ (s.particles.getD j default).Mass = 0) →
    ((∀ q ∈ (gcAllLoop s i).particles, ¬ q.Mass = 0) ∧
     (gcAllLoop s i).particles ~ s.particles.filter (fun q => decide (¬ q.Mass = 0)) ∧
     (∀ j, j < (gcAllLoop s i).particles.length →
       (((gcAllLoop s i).particles.getD j default).Ptype = 0
         ↔ j < (gcAllLoop s i).N_sph_slots)) ∧
     (gcAllLoop s i).particles.length
       + s.particles.countP (fun q => decide (q.Mass = 0)) = s.particles.length ∧
     (∀ b, (gcAllLoop s i).TimeBinCount.getD b 0
       = s.TimeBinCount.getD b 0
         - (s.particles.countP (fun q => decide (q.Mass = 0 ∧ q.TimeBin = b)) : ℤ)) ∧
     (∀ b, (gcAllLoop s i).TimeBinCountSph.getD b 0
       = s.TimeBinCountSph.getD b 0
         - (s.particles.countP
             (fun q => decide (q.Mass = 0 ∧ q.Ptype = 0 ∧ q.TimeBin = b)) : ℤ)) ∧
     (gcAllLoop s i).N_sph_slots
       + s.particles.countP (fun q => decide (q.Mass = 0 ∧ q.Ptype = 0)) = s.N_sph_slots) := by
  intro s i
  induction s, i using gcAllLoop.induct with
  | case1 s i hlen hm ht ih =>
      intro hns hgas htb htbs hclean
      rw [gcAllLoop, dif_pos hlen, if_pos hm, if_pos ht]
      have higas : i < s.N_sph_slots := (hgas i hlen).mp ht
      have hperm : s.particles.getD i default :: gcRemoveGas s.particles s.N_sph_slots i
          ~ s.particles := gcRemoveGas_perm _ _ _ hlen (by omega)
      have hpm : s.particles.getD i default ∈ s.particles := getD_mem_of_lt _ _ hlen
      have hbin : (s.particles.getD i default).TimeBin < s.TimeBinCount.length := htb _ hpm
      have hbins : (s.particles.getD i default).TimeBin < s.TimeBinCountSph.length :=
        htbs _ hpm ht
      have hlen2 : (gcRemoveGas s.particles s.N_sph_slots i).length
          = s.particles.length - 1 := gcRemoveGas_length _ _ _
      have hns2 : s.N_sph_slots - 1 ≤ (gcRemoveGas s.particles s.N_sph_slots i).length := by
        rw [hlen2]
        omega
      have hgas2 : ∀ j, j < (gcRemoveGas s.particles s.N_sph_slots i).length →
          (((gcRemoveGas s.particles s.N_sph_slots i).getD j default).Ptype = 0
            ↔ j < s.N_sph_slots - 1) := by
        intro j hj
        rw [hlen2] at hj
        rw [gcRemoveGas_getD _ _ _ _ hns higas hj]
        by_cases h1 : j = s.N_sph_slots - 1
        · rw [if_pos h1]
          have hg := hgas (s.particles.length - 1) (by omega)
          constructor
          · intro hgg
            have := hg.mp hgg
            omega
          · intro hlt
            omega
        · rw [if_neg h1]
          by_cases h2 : j = i
          · rw [if_pos h2]
            have hg := hgas (s.N_sph_slots - 1) (by omega)
            constructor
            · intro _
              omega
            · intro _
              exact hg.mpr (by omega)
          · rw [if_neg h2]
            have hg := hgas j (by omega)
            constructor
            · intro hgg
              have := hg.mp hgg
              omega
            · intro hlt
              exact hg.mpr (by omega)
      have htb2 : ∀ q ∈ gcRemoveGas s.particles s.N_sph_slots i,
          q.TimeBin < (decAt s.TimeBinCount (s.particles.getD i default).TimeBin).length := by
        intro q hq
        rw [decAt_length]
        exact htb q (hperm.subset (List.mem_cons_of_mem _ hq))
      have htbs2 : ∀ q ∈ gcRemoveGas s.particles s.N_sph_slots i, q.Ptype = 0 →
          q.TimeBin < (decAt s.TimeBinCountSph (s.particles.getD i default).TimeBin).length := by
        intro q hq hq0
        rw [decAt_length]
        exact htbs q (hperm.subset (List.mem_cons_of_mem _ hq)) hq0
      have hclean2 : ∀ j, j < i →
          ¬ ((gcRemoveGas s.particles s.N_sph_slots i).getD j default).Mass = 0 := by
        intro j hj
        rw [gcRemoveGas_getD _ _ _ _ hns higas (by omega)]
        rw [if_neg (by omega), if_neg (by omega)]
        exact hclean j hj
      obtain ⟨A2, B2, C2, D2, E12, E22, F2⟩ := ih hns2 hgas2 htb2 htbs2 hclean2
      dsimp only at B2 D2 E12 E22 F2
      have hc0 : s.particles.countP (fun q => decide (q.Mass = 0))
          = (gcRemoveGas s.particles s.N_sph_slots i).countP
              (fun q => decide (q.Mass = 0)) + 1 := by
        have hc := List.Perm.countP_eq (fun q => decide (q.Mass = 0)) hperm
        rw [List.countP_cons] at hc
        rw [if_pos (by simp only [decide_eq_true_eq]; exact hm)] at hc
        omega
      refine ⟨A2, ?_, C2, ?_, ?_, ?_, ?_⟩
      · have hfc : s.particles.filter (fun q => decide (¬ q.Mass = 0))
            ~ (gcRemoveGas s.particles s.N_sph_slots i).filter
                (fun q => decide (¬ q.Mass = 0)) := by
          have hf := (List.Perm.filter (fun q => decide (¬ q.Mass = 0)) hperm).symm
          rw [List.filter_cons] at hf
          rw [if_neg (by simp only [decide_eq_true_eq]; exact fun hcc => hcc hm)] at hf
          exact hf
        exact B2.trans hfc.symm
      · rw [hc0]
        rw [hlen2] at D2
        omega
      · intro b
        have E1b := E12 b
        rw [decAt_getD _ _ _ hbin] at E1b
        have hc := List.Perm.countP_eq
          (fun q => decide (q.Mass = 0 ∧ q.TimeBin = b)) hperm
        rw [List.countP_cons] at hc
        by_cases hbb : (s.particles.getD i default).TimeBin = b
        · rw [if_pos (by simp only [decide_eq_true_eq]; exact ⟨hm, hbb⟩)] at hc
          rw [if_pos (by omega)] at E1b
          rw [E1b]
          omega
        · rw [if_neg (by simp only [decide_eq_true_eq]; exact fun hcc => hbb hcc.2)] at hc
          rw [if_neg (by omega)] at E1b
          rw [E1b]
          omega
      · intro b
        have E2b := E22 b
        rw [decAt_getD _ _ _ hbins] at E2b
        have hc := List.Perm.countP_eq
          (fun q => decide (q.Mass = 0 ∧ q.Ptype = 0 ∧ q.TimeBin = b)) hperm
        rw [List.countP_cons] at hc
        by_cases hbb : (s.particles.getD i default).TimeBin = b
        · rw [if_pos (by simp only [decide_eq_true_eq]; exact ⟨hm, ht, hbb⟩)] at hc
          rw [if_pos (by omega)] at E2b
          rw [E2b]
          omega
        · rw [if_neg (by simp only [decide_eq_true_eq]; exact fun hcc => hbb hcc.2.2)] at hc
          rw [if_neg (by omega)] at E2b
          rw [E2b]
          omega
      · have hc := List.Perm.countP_eq
          (fun q => decide (q.Mass = 0 ∧ q.Ptype = 0)) hperm
        rw [List.countP_cons] at hc
        rw [if_pos (by simp only [decide_eq_true_eq]; exact ⟨hm, ht⟩)] at hc
        omega
  | case2 s i hlen hm ht ih =>
      intro hns hgas htb htbs hclean
      rw [gcAllLoop, dif_pos hlen, if_pos hm, if_neg ht]
      have higas : s.N_sph_slots ≤ i := by
        by_contra hcon
        exact ht ((hgas i hlen).mpr (by omega))
      have hperm : s.particles.getD i default :: gcRemoveTail s.particles i
          ~ s.particles := gcRemoveTail_perm _ _ hlen
      have hpm : s.particles.getD i default ∈ s.particles := getD_mem_of_lt _ _ hlen
      have hbin : (s.particles.getD i default).TimeBin < s.TimeBinCount.length := htb _ hpm
      have hlen2 : (gcRemoveTail s.particles i).length = s.particles.length - 1 :=
        gcRemoveTail_length _ _
      have hns2 : s.N_sph_slots ≤ (gcRemoveTail s.particles i).length := by
        rw [hlen2]
        omega
      have hgas2 : ∀ j, j < (gcRemoveTail s.particles i).length →
          (((gcRemoveTail s.particles i).getD j default).Ptype = 0
            ↔ j < s.N_sph_slots) := by
        intro j hj
        rw [hlen2] at hj
        rw [gcRemoveTail_getD _ _ _ hlen hj]
        by_cases h2 : j = i
        · rw [if_pos h2]
          have hg := hgas (s.particles.length - 1) (by omega)
          constructor
          · intro hgg
            have := hg.mp hgg
            omega
          · intro hlt
            omega
        · rw [if_neg h2]
          exact hgas j (by omega)
      have htb2 : ∀ q ∈ gcRemoveTail s.particles i,
          q.TimeBin < (decAt s.TimeBinCount (s.particles.getD i default).TimeBin).length := by
        intro q hq
        rw [decAt_length]
        exact htb q (hperm.subset (List.mem_cons_of_mem _ hq))
      have htbs2 : ∀ q ∈ gcRemoveTail s.particles i, q.Ptype = 0 →
          q.TimeBin < s.TimeBinCountSph.length := by
        intro q hq hq0
        exact htbs q (hperm.subset (List.mem_cons_of_mem _ hq)) hq0
      have hclean2 : ∀ j, j < i →
          ¬ ((gcRemoveTail s.particles i).getD j default).Mass = 0 := by
        intro j hj
        rw [gcRemoveTail_getD _ _ _ hlen (by omega)]
        rw [if_neg (by omega)]
        exact hclean j hj
      obtain ⟨A2, B2, C2, D2, E12, E22, F2⟩ := ih hns2 hgas2 htb2 htbs2 hclean2
      dsimp only at B2 D2 E12 E22 F2
      have hc0 : s.particles.countP (fun q => decide (q.Mass = 0))
          = (gcRemoveTail s.particles i).countP (fun q => decide (q.Mass = 0)) + 1 := by
        have hc := List.Perm.countP_eq (fun q => decide (q.Mass = 0)) hperm
        rw [List.countP_cons] at hc
        rw [if_pos (by simp only [decide_eq_true_eq]; exact hm)] at hc
        omega
      refine ⟨A2, ?_, C2, ?_, ?_, ?_, ?_⟩
      · have hfc : s.particles.filter (fun q => decide (¬ q.Mass = 0))
            ~ (gcRemoveTail s.particles i).filter (fun q => decide (¬ q.Mass = 0)) := by
          have hf := (List.Perm.filter (fun q => decide (¬ q.Mass = 0)) hperm).symm
          rw [List.filter_cons] at hf
          rw [if_neg (by simp only [decide_eq_true_eq]; exact fun hcc => hcc hm)] at hf
          exact hf
        exact B2.trans hfc.symm
      · rw [hc0]
        rw [hlen2] at D2
        omega
      · intro b
        have E1b := E12 b
        rw [decAt_getD _ _ _ hbin] at E1b
        have hc := List.Perm.countP_eq
          (fun q => decide (q.Mass = 0 ∧ q.TimeBin = b)) hperm
        rw [List.countP_cons] at hc
        by_cases hbb : (s.particles.getD i default).TimeBin = b
        · rw [if_pos (by simp only [decide_eq_true_eq]; exact ⟨hm, hbb⟩)] at hc
          rw [if_pos (by omega)] at E1b
          rw [E1b]
          omega
        · rw [if_neg (by simp only [decide_eq_true_eq]; exact fun hcc => hbb hcc.2)] at hc
          rw [if_neg (by omega)] at E1b
          rw [E1b]
          omega
      · intro b
        have E2b := E22 b
        have hc := List.Perm.countP_eq
          (fun q => decide (q.Mass = 0 ∧ q.Ptype = 0 ∧ q.TimeBin = b)) hperm
        rw [List.countP_cons] at hc
        rw [if_neg (by simp only [decide_eq_true_eq]; exact fun hcc => ht hcc.2.1)] at hc
        rw [E2b]
        omega
      · have hc := List.Perm.countP_eq
          (fun q => decide (q.Mass = 0 ∧ q.Ptype = 0)) hperm
        rw [List.countP_cons] at hc
        rw [if_neg (by simp only [decide_eq_true_eq]; exact fun hcc => ht hcc.2)] at hc
        omega
  | case3 s i hlen hm ih =>
      intro hns hgas htb htbs hclean
      rw [gcAllLoop, dif_pos hlen, if_neg hm]
      refine ih hns hgas htb htbs ?_
      intro j hj
      by_cases hji : j = i
      · subst hji
        exact hm
      · exact hclean j (by omega)
  | case4 s i hlen =>
      intro hns hgas htb htbs hclean
      rw [gcAllLoop, dif_neg hlen]
      have hnomass : ∀ q ∈ s.particles, ¬ q.Mass = 0 := by
        intro q hq
        obtain ⟨n, hn, rfl⟩ := List.mem_iff_getElem.mp hq
        have hcl := hclean n (by omega)
        rwa [List.getD_eq_getElem s.particles default hn] at hcl
      have hcz : s.particles.countP (fun q => decide (q.Mass = 0)) = 0 := by
        rw [List.countP_eq_zero]
        intro q hq
        simp only [decide_eq_true_eq]
        exact hnomass q hq
      refine ⟨hnomass, ?_, hgas, by omega, ?_, ?_, ?_⟩
      · rw [List.filter_eq_self.mpr ?_]
        intro q hq
        simp only [decide_eq_true_eq]
        exact hnomass q hq
      · intro b
        have hz : s.particles.countP (fun q => decide (q.Mass = 0 ∧ q.TimeBin = b)) = 0 := by
          rw [List.countP_eq_zero]
          intro q hq
          simp only [decide_eq_true_eq]
          exact fun hcc => hnomass q hq hcc.1
        rw [hz]
        simp
      · intro b
        have hz : s.particles.countP
            (fun q => decide (q.Mass = 0 ∧ q.Ptype = 0 ∧ q.TimeBin = b)) = 0 := by
          rw [List.countP_eq_zero]
          intro q hq
          simp only [decide_eq_true_eq]
          exact fun hcc => hnomass q hq hcc.1
        rw [hz]
        simp
      · have hz : s.particles.countP (fun q => decide (q.Mass = 0 ∧ q.Ptype = 0)) = 0 := by
          rw [List.countP_eq_zero]
          intro q hq
          simp only [decide_eq_true_eq]
          exact fun hcc => hnomass q hq hcc.1
        omega

/-- Claim C5: after the mass zero elimination pass no zero mass base entry
remains; each such entry is removed by moving the table end into its slot
(with the additional swap against the gas region end when the entry was gas,
so the prefix stays dense and gas only, as multisets exactly the nonzero
mass entries survive); its timebin counter is decremented; and the force
tree is reported invalid exactly when at least one entry was removed. -/
theorem domain_all_garbage_collection_C5 (s : gc_state)
    (hns : s.N_sph_slots ≤ s.particles.length)
    (hgas : ∀ j, j < s.particles.length →
      ((s.particles.getD j default).Ptype = 0 ↔ j < s.N_sph_slots))
    (htb : ∀ q ∈ s.particles, q.TimeBin < s.TimeBinCount.length)
    (htbs : ∀ q ∈ s.particles, q.Ptype = 0 → q.TimeBin < s.TimeBinCountSph.length) :
    (∀ q ∈ (domain_all_garbage_collection s).1.particles, ¬ q.Mass = 0) ∧
    (domain_all_garbage_collection s).1.particles
      ~ s.particles.filter (fun q => decide (¬ q.Mass = 0)) ∧
    (∀ j, j < (domain_all_garbage_collection s).1.particles.length →
      (((domain_all_garbage_collection s).1.particles.getD j default).Ptype = 0
        ↔ j < (domain_all_garbage_collection s).1.N_sph_slots)) ∧
    (∀ b, (domain_all_garbage_collection s).1.TimeBinCount.getD b 0
      = s.TimeBinCount.getD b 0
        - (s.particles.countP (fun q => decide (q.Mass = 0 ∧ q.TimeBin = b)) : ℤ)) ∧
    (∀ b, (domain_all_garbage_collection s).1.TimeBinCountSph.getD b 0
      = s.TimeBinCountSph.getD b 0
        - (s.particles.countP
            (fun q => decide (q.Mass = 0 ∧ q.Ptype = 0 ∧ q.TimeBin = b)) : ℤ)) ∧
    ((domain_all_garbage_collection s).1.N_sph_slots
      + s.particles.countP (fun q => decide (q.Mass = 0 ∧ q.Ptype = 0)) = s.N_sph_slots) ∧
    ((domain_all_garbage_collection s).2 = true ↔ ∃ q ∈ s.particles, q.Mass = 0) := by
  obtain ⟨A, B, C, D, E1, E2, F⟩ :=
    gcAllLoop_spec s 0 hns hgas htb htbs (by intro j hj; omega)
  unfold domain_all_garbage_collection
  refine ⟨A, B, C, E1, E2, F, ?_⟩
  simp only [decide_eq_true_eq]
  constructor
  · intro hne
    by_contra hcon
    push_neg at hcon
    have hz : s.particles.countP (fun q => decide (q.Mass = 0)) = 0 := by
      rw [List.countP_eq_zero]
      intro q hq
      simp only [decide_eq_true_eq]
      exact hcon q hq
    rw [hz] at D
    omega
  · rintro ⟨q, hq, hq0⟩
    intro heq
    rw [heq] at D
    have hpos : 0 < s.particles.countP (fun q => decide (q.Mass = 0)) := by
      rw [List.countP_pos]
      exact ⟨q, hq, by simp only [decide_eq_true_eq]; exact hq0⟩
    omega

/-- Witness for claim C5 at a concrete four particle state with one dead gas
entry and one dead dark matter entry. -/
theorem domain_all_garbage_collection_C5_witness :
    (∀ q ∈ (domain_all_garbage_collection gc_demo_state).1.particles, ¬ q.Mass = 0) ∧
    ((domain_all_garbage_collection gc_demo_state).2 = true ↔
      ∃ q ∈ gc_demo_state.particles, q.Mass = 0) := by
  obtain ⟨A, B, C, E1, E2, F, G⟩ :=
    domain_all_garbage_collection_C5 gc_demo_state (by decide) (by decide) (by decide)
      (by decide)
  exact ⟨A, G⟩

/-- The comparator order is total. -/
theorem bh_cmp_total (a b : bh_particle_data) :
    (bh_cmp_reverse_link_le a b || bh_cmp_reverse_link_le b a) = true := by
  unfold bh_cmp_reverse_link_le
  by_cases h1 : a.ReverseLink = -1 <;> by_cases h2 : b.ReverseLink = -1 <;>
    simp [h1, h2] <;> omega

/-- The comparator order is transitive. -/
theorem bh_cmp_trans (a b c : bh_particle_data) :
    bh_cmp_reverse_link_le a b = true → bh_cmp_reverse_link_le b c = true →
    bh_cmp_reverse_link_le a c = true := by
  unfold bh_cmp_reverse_link_le
  by_cases h1 : a.ReverseLink = -1 <;> by_cases h2 : b.ReverseLink = -1 <;>
    by_cases h3 : c.ReverseLink = -1 <;> simp [h1, h2, h3] <;> omega

/-- Length of the slot table after the global reset. -/
theorem bhResetAll_length (bhp : List bh_particle_data) :
    (bhResetAll bhp).length = bhp.length := by
  simp [bhResetAll]

/-- Reading the slot table after the global reset. -/
theorem bhResetAll_getD (bhp : List bh_particle_data) (j : ℕ) (h : j < bhp.length) :
    (bhResetAll bhp).getD j default = { bhp.getD j default with ReverseLink := -1 } := by
  unfold bhResetAll
  rw [List.getD_eq_getElem _ default (by simpa using h), List.getD_eq_getElem _ default h]
  simp

/-- Reading past a drop shifts the index. -/
theorem getD_drop {α : Type} (l : List α) (n m : ℕ) (d : α) :
    (l.drop n).getD m d = l.getD (n + m) d := by
  simp [List.getD, List.getElem?_drop]

/-- Overwriting one entry trades its predicate value against the new one. -/
theorem countP_set {α : Type} [Inhabited α] (l : List α) (j : ℕ) (v : α) (p : α → Bool)
    (h : j < l.length) :
    (l.set j v).countP p + (if p (l.getD j default) then 1 else 0)
      = l.countP p + (if p v then 1 else 0) := by
  rw [List.set_eq_take_append_cons_drop, if_pos h]
  conv_rhs => rw [← List.take_append_drop j l, List.drop_eq_getElem_cons h]
  rw [List.countP_append, List.countP_append, List.countP_cons, List.countP_cons]
  rw [List.getD_eq_getElem l default h]
  omega

/-- Two distinct positions both satisfying a predicate force a count of at
least two. -/
theorem two_positions_countP {α : Type} [Inhabited α] (l : List α) (p : α → Bool)
    (i j : ℕ) (hij : i < j) (hj : j < l.length)
    (hpi : p (l.getD i default) = true) (hpj : p (l.getD j default) = true) :
    2 ≤ l.countP p := by
  conv_rhs => rw [← List.take_append_drop (i + 1) l]
  rw [List.countP_append]
  have h1 : 0 < (l.take (i + 1)).countP p := by
    rw [List.countP_pos]
    refine ⟨l.getD i default, ?_, hpi⟩
    rw [← getD_take_lt l (i + 1) i default (by omega)]
    exact getD_mem_of_lt _ _ (by simp only [List.length_take]; omega)
  have h2 : 0 < (l.drop (i + 1)).countP p := by
    rw [List.countP_pos]
    refine ⟨l.getD j default, ?_, hpj⟩
    rw [show l.getD j default = (l.drop (i + 1)).getD (j - (i + 1)) default by
      rw [getD_drop]
      congr 1
      omega]
    exact getD_mem_of_lt _ _ (by simp only [List.length_drop]; omega)
  omega

/-- A predicate holding at no two distinct positions counts at most one. -/
theorem countP_le_one_of_unique {α : Type} [Inhabited α] (l : List α) (p : α → Bool)
    (h : ∀ j0 j1, j0 < l.length → j1 < l.length →
      p (l.getD j0 default) = true → p (l.getD j1 default) = true → j0 = j1) :
    l.countP p ≤ 1 := by
  induction l with
  | nil => simp
  | cons a t ih =>
    rw [List.countP_cons]
    by_cases hpa : p a = true
    · have htz : t.countP p = 0 := by
        rw [List.countP_eq_zero]
        intro x hx
        obtain ⟨m, hm, rfl⟩ := List.mem_iff_getElem.mp hx
        intro hpx
        have h0 : p ((a :: t).getD 0 default) = true := by simpa using hpa
        have h1 : p ((a :: t).getD (m + 1) default) = true := by
          rw [List.getD_cons_succ, List.getD_eq_getElem t default hm]
          exact hpx
        have := h 0 (m + 1) (by simp) (by simp; omega) h0 h1
        omega
      simp [htz, hpa]
    · have hl : t.countP p ≤ 1 := by
        apply ih
        intro j0 j1 hj0 hj1 hq0 hq1
        have := h (j0 + 1) (j1 + 1) (by simp; omega) (by simp; omega)
          (by rwa [List.getD_cons_succ]) (by rwa [List.getD_cons_succ])
        omega
      rw [Bool.not_eq_true] at hpa
      simp [hpa]
      omega

/-- Reading inside the left part of an appended list. -/
theorem getD_append_left {α : Type} [Inhabited α] (l1 l2 : List α) (j : ℕ)
    (h : j < l1.length) : (l1 ++ l2).getD j default = l1.getD j default := by
  simp [List.getD, List.getElem?_append_left, h]

/-- The linking loop preserves the slot table length. -/
theorem bhLinkAux_length (particles : List particle_data) (bhp : List bh_particle_data)
    (k : ℕ) : (bhLinkAux particles bhp k).length = bhp.length := by
  induction k with
  | zero => rfl
  | succ k ih =>
    unfold bhLinkAux
    split
    · rw [List.length_set]
      exact ih
    · exact ih

/-- The shrink scan never grows the live region. -/
theorem bhShrink_le (l : List bh_particle_data) (n : ℕ) : bhShrink l n ≤ n := by
  induction n with
  | zero => simp [bhShrink]
  | succ n ih =>
    unfold bhShrink
    split
    · omega
    · omega

/-- After a nonempty shrink the last surviving slot is still linked. -/
theorem bhShrink_last (l : List bh_particle_data) (n : ℕ) (h : 0 < bhShrink l n) :
    (l.getD (bhShrink l n - 1) default).ReverseLink ≠ -1 := by
  induction n with
  | zero => simp [bhShrink] at h
  | succ n ih =>
    by_cases hc : (l.getD n default).ReverseLink = -1
    · simp only [bhShrink, if_pos hc] at h ⊢
      exact ih h
    · simp only [bhShrink, if_neg hc]
      simpa using hc

/-- Length of the sorted live region: the slot count, within allocation. -/
theorem bhSortedPre_length (s : bh_state) (hcap : s.N_bh_slots ≤ s.BhP.length) :
    (bhSortedPre s).length = s.N_bh_slots := by
  unfold bhSortedPre
  rw [List.length_insertionSort, List.length_take, bhLink, bhLinkAux_length, bhResetAll_length]
  omega

/-- The sorted live region is ordered by the qsort comparator. -/
theorem bhSortedPre_pairwise (s : bh_state) :
    (bhSortedPre s).Pairwise bh_le := by
  haveI : IsTotal bh_particle_data bh_le := ⟨fun a b => by
    have h := bh_cmp_total a b
    rw [Bool.or_eq_true] at h
    exact h⟩
  haveI : IsTrans bh_particle_data bh_le := ⟨fun a b c => bh_cmp_trans a b c⟩
  exact List.sorted_insertionSort bh_le _

/-- Below the shrunk count, every sorted slot is linked: the -1 slots sort to
the back and the scan stops at the last linked one. -/
theorem bhSortedPre_linked (s : bh_state) (hcap : s.N_bh_slots ≤ s.BhP.length)
    (k : ℕ) (hk : k < bhNewN s) :
    ((bhSortedPre s).getD k default).ReverseLink ≠ -1 := by
  have hlen := bhSortedPre_length s hcap
  have hle : bhNewN s ≤ s.N_bh_slots := by
    unfold bhNewN
    exact bhShrink_le _ _
  have hlast : ((bhSortedPre s).getD (bhNewN s - 1) default).ReverseLink ≠ -1 := by
    unfold bhNewN
    refine bhShrink_last _ _ ?_
    unfold bhNewN at hk
    omega
  rcases eq_or_lt_of_le (show k + 1 ≤ bhNewN s by omega) with heq | hlt
  · have hkk : k = bhNewN s - 1 := by omega
    rwa [hkk]
  · intro hRL
    have hp := bhSortedPre_pairwise s
    rw [List.pairwise_iff_getElem] at hp
    have h1 : k < (bhSortedPre s).length := by omega
    have h2 : bhNewN s - 1 < (bhSortedPre s).length := by omega
    have hcmp := hp k (bhNewN s - 1) h1 h2 (by omega)
    rw [List.getD_eq_getElem _ default h1] at hRL
    rw [List.getD_eq_getElem _ default h2] at hlast
    unfold bh_le bh_cmp_reverse_link_le at hcmp
    rw [if_neg (fun hb => hlast hb.2), if_pos hRL] at hcmp
    simp at hcmp

/-- The relink loop preserves the base table length. -/
theorem bhRelinkAux_length (particles : List particle_data) (srt : List bh_particle_data)
    (k : ℕ) : (bhRelinkAux particles srt k).length = particles.length := by
  induction k with
  | zero => rfl
  | succ k ih =>
    unfold bhRelinkAux
    rw [List.length_set]
    exact ih

/-- Relinking changes at most the PI field of any base entry. -/
theorem bhRelinkAux_frame (particles : List particle_data) (srt : List bh_particle_data)
    (k j : ℕ) (hj : j < particles.length) :
    (bhRelinkAux particles srt k).getD j default
      = { particles.getD j default with
          PI := ((bhRelinkAux particles srt k).getD j default).PI } := by
  induction k with
  | zero => rfl
  | succ k ih =>
    unfold bhRelinkAux
    by_cases hjt : (srt.getD k default).ReverseLink.toNat = j
    · rw [hjt]
      have hlen : j < (bhRelinkAux particles srt k).length := by
        rw [bhRelinkAux_length]
        exact hj
      rw [getD_set_self _ _ _ hlen, ih]
    · rw [getD_set_ne _ _ _ _ hjt]
      exact ih

/-- A base entry named by no live slot is untouched by relinking. -/
theorem bhRelinkAux_untouched (particles : List particle_data) (srt : List bh_particle_data)
    (k j : ℕ) (h : ∀ m, m < k → (srt.getD m default).ReverseLink.toNat ≠ j) :
    (bhRelinkAux particles srt k).getD j default = particles.getD j default := by
  induction k with
  | zero => rfl
  | succ k ih =>
    unfold bhRelinkAux
    rw [getD_set_ne _ _ _ _ (h k (by omega))]
    exact ih (fun m hm => h m (by omega))

/-- Reading a reset slot inside the surviving region. -/
theorem bhResetFirst_getD_lt (bhp : List bh_particle_data) (n j : ℕ)
    (hj : j < n) (hn : n ≤ bhp.length) :
    (bhResetFirst bhp n).getD j default
      = { bhp.getD j default with ReverseLink := -1 } := by
  unfold bhResetFirst
  have hj1 : j < ((bhp.take n).map (fun b => { b with ReverseLink := -1 })).length := by
    simp only [List.length_map, List.length_take]
    omega
  rw [getD_append_left _ _ _ hj1, List.getD_eq_getElem _ default hj1,
    List.getElem_map, List.getElem_take, List.getD_eq_getElem _ default (by omega)]

/-- Every link written by the linking loop names a type 5 base entry below
the loop bound. -/
theorem bhLinkAux_source (particles : List particle_data) (bhp0 : List bh_particle_data)
    (h0 : ∀ j, j < bhp0.length → (bhp0.getD j default).ReverseLink = -1) (k : ℕ) :
    ∀ j, j < bhp0.length →
      ((bhLinkAux particles bhp0 k).getD j default).ReverseLink ≠ -1 →
      ∃ i, i < k ∧ (particles.getD i default).Ptype = 5 ∧
        ((bhLinkAux particles bhp0 k).getD j default).ReverseLink = (i : ℤ) := by
  induction k with
  | zero =>
    intro j hj hRL
    exact absurd (h0 j hj) hRL
  | succ k ih =>
    intro j hj hRL
    by_cases ht : (particles.getD k default).Ptype = 5
    · by_cases hPIlen : (particles.getD k default).PI < (bhLinkAux particles bhp0 k).length
      · by_cases hjPI : (particles.getD k default).PI = j
        · refine ⟨k, by omega, ht, ?_⟩
          simp only [bhLinkAux, if_pos ht]
          rw [hjPI] at hPIlen
          rw [hjPI, getD_set_self _ _ _ hPIlen]
        · simp only [bhLinkAux, if_pos ht] at hRL ⊢
          rw [getD_set_ne _ _ _ _ hjPI] at hRL ⊢
          obtain ⟨i, hik, hi5, hieq⟩ := ih j hj hRL
          exact ⟨i, by omega, hi5, hieq⟩
      · simp only [bhLinkAux, if_pos ht,
          List.set_eq_of_length_le (by omega : (bhLinkAux particles bhp0 k).length ≤ (particles.getD k default).PI)] at hRL ⊢
        obtain ⟨i, hik, hi5, hieq⟩ := ih j hj hRL
        exact ⟨i, by omega, hi5, hieq⟩
    · simp only [bhLinkAux, if_neg ht] at hRL ⊢
      obtain ⟨i, hik, hi5, hieq⟩ := ih j hj hRL
      exact ⟨i, by omega, hi5, hieq⟩

/-- Every live slot of the sorted region links a type 5 base entry. -/
theorem bhSortedPre_source (s : bh_state) (hcap : s.N_bh_slots ≤ s.BhP.length)
    (k : ℕ) (hk : k < bhNewN s) :
    ∃ i, (s.particles.getD i default).Ptype = 5 ∧
      ((bhSortedPre s).getD k default).ReverseLink = (i : ℤ) := by
  have hRL := bhSortedPre_linked s hcap k hk
  have hle : bhNewN s ≤ s.N_bh_slots := bhShrink_le _ _
  have hmem : (bhSortedPre s).getD k default ∈ bhSortedPre s :=
    getD_mem_of_lt _ _ (by rw [bhSortedPre_length s hcap]; omega)
  have hmem2 : (bhSortedPre s).getD k default
      ∈ (bhLink s.particles (bhResetAll s.BhP)).take s.N_bh_slots :=
    (List.perm_insertionSort bh_le _).mem_iff.mp hmem
  have hmem3 : (bhSortedPre s).getD k default ∈ bhLink s.particles (bhResetAll s.BhP) :=
    List.take_subset _ _ hmem2
  obtain ⟨m, hm, hmeq⟩ := List.mem_iff_getElem.mp hmem3
  have hmlen : m < (bhResetAll s.BhP).length := by
    rw [bhLink, bhLinkAux_length] at hm
    exact hm
  have hgd : (bhLink s.particles (bhResetAll s.BhP)).getD m default
      = (bhSortedPre s).getD k default := by
    rw [List.getD_eq_getElem _ default hm]
    exact hmeq
  obtain ⟨i, hik, hi5, hieq⟩ := bhLinkAux_source s.particles (bhResetAll s.BhP)
    (fun j hj => by
      rw [bhResetAll_getD s.BhP j (by rw [bhResetAll_length] at hj; exact hj)])
    s.particles.length m hmlen (by rw [bhLink] at hgd; rw [hgd]; exact hRL)
  refine ⟨i, hi5, ?_⟩
  rw [← hgd, bhLink]
  exact hieq


/-- C3: after a successful black hole compaction pass (the pass runs: there
are live slots, within the allocation), every type 5 base entry points below
the new live count at a slot carrying its ID, the new live count equals the
number of type 5 base entries, the sorted live region places the linked
slots first in ascending ReverseLink order, and every surviving slot has its
ReverseLink reset to -1. -/
theorem domain_bh_garbage_collection_C3 (s s2 : bh_state) (r : ℕ)
    (hn : 0 < s.N_bh_slots) (hcap : s.N_bh_slots ≤ s.BhP.length)
    (h : domain_bh_garbage_collection s = some (s2, r)) :
    (∀ i, i < s2.particles.length → (s2.particles.getD i default).Ptype = 5 →
      (s2.particles.getD i default).PI < s2.N_bh_slots ∧
      (s2.BhP.getD (s2.particles.getD i default).PI default).ID
        = (s2.particles.getD i default).ID) ∧
    s2.N_bh_slots = s2.particles.countP (fun q => decide (q.Ptype = 5)) ∧
    (∀ a b, a < b → b < (bhSortedPre s).length →
      ((bhSortedPre s).getD b default).ReverseLink ≠ -1 →
      ((bhSortedPre s).getD a default).ReverseLink ≠ -1 ∧
      ((bhSortedPre s).getD a default).ReverseLink
        ≤ ((bhSortedPre s).getD b default).ReverseLink) ∧
    (∀ j, j < s2.N_bh_slots → (s2.BhP.getD j default).ReverseLink = -1) := by
  unfold domain_bh_garbage_collection at h
  rw [if_neg (by omega)] at h
  by_cases hchk : bhCheckPass s.particles s.BhP s.N_bh_slots
  · rw [if_pos hchk] at h
    by_cases hfin : bhFinalPass s
    · rw [if_pos hfin] at h
      rw [Option.some.injEq, Prod.mk.injEq] at h
      obtain ⟨hs2, hr⟩ := h
      subst hs2
      obtain ⟨hf1, hf2⟩ := hfin
      refine ⟨hf1, hf2.symm, ?_, ?_⟩
      · intro a b hab hb hRLb
        have hp := bhSortedPre_pairwise s
        rw [List.pairwise_iff_getElem] at hp
        have ha : a < (bhSortedPre s).length := by omega
        have hcmp := hp a b ha hb hab
        rw [List.getD_eq_getElem _ default hb] at hRLb
        rw [List.getD_eq_getElem _ default ha, List.getD_eq_getElem _ default hb]
        unfold bh_le bh_cmp_reverse_link_le at hcmp
        by_cases hRLa : (bhSortedPre s)[a].ReverseLink = -1
        · rw [if_neg (fun hx => hRLb hx.2), if_pos hRLa] at hcmp
          simp at hcmp
        · rw [if_neg (fun hx => hRLb hx.2), if_neg hRLa, if_neg hRLb] at hcmp
          exact ⟨hRLa, by simpa using hcmp⟩
      · intro j hj
        have hj2 : j < bhNewN s := hj
        have hle : bhNewN s ≤ s.N_bh_slots := by
          unfold bhNewN
          exact bhShrink_le _ _
        have hlen2 : bhNewN s
            ≤ (bhSortedPre s
                ++ (bhLink s.particles (bhResetAll s.BhP)).drop s.N_bh_slots).length := by
          rw [List.length_append, bhSortedPre_length s hcap]
          omega
        show ((bhNewBhP s).getD j default).ReverseLink = -1
        unfold bhNewBhP
        rw [bhResetFirst_getD_lt _ _ _ hj2 hlen2]
    · rw [if_neg hfin] at h
      exact absurd h (by simp)
  · rw [if_neg hchk] at h
    exact absurd h (by simp)

/-- C9: a successful black hole compaction pass reports result 0 (it never
reports the force tree invalid) and preserves the base particle table frame:
the table length and entry order are kept, every entry changes in at most
its PI field, and entries that are not type 5 are untouched. -/
theorem domain_bh_garbage_collection_C9 (s s2 : bh_state) (r : ℕ)
    (hcap : s.N_bh_slots ≤ s.BhP.length)
    (h : domain_bh_garbage_collection s = some (s2, r)) :
    r = 0 ∧ s2.particles.length = s.particles.length ∧
    (∀ j, j < s.particles.length →
      s2.particles.getD j default
        = { s.particles.getD j default with PI := (s2.particles.getD j default).PI }) ∧
    (∀ j, j < s.particles.length → (s.particles.getD j default).Ptype ≠ 5 →
      s2.particles.getD j default = s.particles.getD j default) := by
  unfold domain_bh_garbage_collection at h
  by_cases hz : s.N_bh_slots = 0
  · rw [if_pos hz, Option.some.injEq, Prod.mk.injEq] at h
    obtain ⟨hs2, hr⟩ := h
    subst hs2
    exact ⟨hr.symm, rfl, fun j hj => rfl, fun j hj ht => rfl⟩
  · rw [if_neg hz] at h
    by_cases hchk : bhCheckPass s.particles s.BhP s.N_bh_slots
    · rw [if_pos hchk] at h
      by_cases hfin : bhFinalPass s
      · rw [if_pos hfin] at h
        rw [Option.some.injEq, Prod.mk.injEq] at h
        obtain ⟨hs2, hr⟩ := h
        subst hs2
        refine ⟨hr.symm, ?_, ?_, ?_⟩
        · show (bhNewParticles s).length = s.particles.length
          unfold bhNewParticles
          exact bhRelinkAux_length _ _ _
        · intro j hj
          exact bhRelinkAux_frame _ _ _ _ hj
        · intro j hj ht
          show (bhNewParticles s).getD j default = s.particles.getD j default
          unfold bhNewParticles
          refine bhRelinkAux_untouched _ _ _ _ ?_
          intro m hm
          obtain ⟨i, hi5, hieq⟩ := bhSortedPre_source s hcap m hm
          rw [hieq]
          intro hcon
          have hij : i = j := by simpa using hcon
          rw [hij] at hi5
          exact ht hi5
      · rw [if_neg hfin] at h
        exact absurd h (by simp)
    · rw [if_neg hchk] at h
      exact absurd h (by simp)

/-- Witness for C3: the demo state runs the pass successfully and the
compaction invariants hold on its result. -/
theorem domain_bh_garbage_collection_C3_witness :
    (0 < bh_demo_state.N_bh_slots ∧ bh_demo_state.N_bh_slots ≤ bh_demo_state.BhP.length ∧
      domain_bh_garbage_collection bh_demo_state = some (bh_demo_result, 0)) ∧
    ((∀ i, i < bh_demo_result.particles.length →
        (bh_demo_result.particles.getD i default).Ptype = 5 →
        (bh_demo_result.particles.getD i default).PI < bh_demo_result.N_bh_slots ∧
        (bh_demo_result.BhP.getD (bh_demo_result.particles.getD i default).PI default).ID
          = (bh_demo_result.particles.getD i default).ID) ∧
      bh_demo_result.N_bh_slots
        = bh_demo_result.particles.countP (fun q => decide (q.Ptype = 5)) ∧
      (∀ a b, a < b → b < (bhSortedPre bh_demo_state).length →
        ((bhSortedPre bh_demo_state).getD b default).ReverseLink ≠ -1 →
        ((bhSortedPre bh_demo_state).getD a default).ReverseLink ≠ -1 ∧
        ((bhSortedPre bh_demo_state).getD a default).ReverseLink
          ≤ ((bhSortedPre bh_demo_state).getD b default).ReverseLink) ∧
      (∀ j, j < bh_demo_result.N_bh_slots →
        (bh_demo_result.BhP.getD j default).ReverseLink = -1)) :=
  ⟨⟨by decide, by decide, by decide⟩,
    domain_bh_garbage_collection_C3 bh_demo_state bh_demo_result 0
      (by decide) (by decide) (by decide)⟩

/-- Witness for C9: on the demo state the pass returns 0 and changes only
the PI field of the type 5 base entry. -/
theorem domain_bh_garbage_collection_C9_witness :
    (bh_demo_state.N_bh_slots ≤ bh_demo_state.BhP.length ∧
      domain_bh_garbage_collection bh_demo_state = some (bh_demo_result, 0)) ∧
    ((0 : ℕ) = 0 ∧ bh_demo_result.particles.length = bh_demo_state.particles.length ∧
      (∀ j, j < bh_demo_state.particles.length →
        bh_demo_result.particles.getD j default
          = { bh_demo_state.particles.getD j default with
              PI := (bh_demo_result.particles.getD j default).PI }) ∧
      (∀ j, j < bh_demo_state.particles.length →
        (bh_demo_state.particles.getD j default).Ptype ≠ 5 →
        bh_demo_result.particles.getD j default
          = bh_demo_state.particles.getD j default)) :=
  ⟨⟨by decide, by decide⟩,
    domain_bh_garbage_collection_C9 bh_demo_state bh_demo_result 0
      (by decide) (by decide)⟩

/-- C1: at any node with no parent the refinement returns 0 at once with the
state untouched, whatever the key size, count, cost and free node space. In
particular the sole outside call, on the root domain_determineTopTree built
with Parent -1, refines nothing: the top tree never grows past the root. -/
theorem domain_check_for_local_refine_C1 (costfac : ℕ → ℚ) (mp : List peano_hilbert_data)
    (fuel i : ℕ) (s : refine_state) (hf : 0 < fuel)
    (hroot : (s.topNodes.getD i default).Parent < 0) :
    domain_check_for_local_refine costfac mp fuel i s = some (0, s) := by
  obtain ⟨fuel, rfl⟩ : ∃ f, fuel = f + 1 := ⟨fuel - 1, by omega⟩
  unfold domain_check_for_local_refine
  by_cases hsz : (s.topNodes.getD i default).Size < 8
  · rw [if_pos hsz]
  · rw [if_neg hsz, if_pos (Or.inl hroot)]

/-- Witness for C1: the demo root has 64 cells, all particles and ample node
space, yet the call leaves the state unchanged with result 0. -/
theorem domain_check_for_local_refine_C1_witness :
    (0 < 5 ∧ (refine_demo_state.topNodes.getD 0 default).Parent < 0) ∧
    8 ≤ (refine_demo_state.topNodes.getD 0 default).Size ∧
    refine_demo_state.NTopnodes + 8 ≤ refine_demo_state.MaxTopNodes ∧
    domain_check_for_local_refine (fun x => 1) [] 5 0 refine_demo_state
      = some (0, refine_demo_state) :=
  ⟨⟨by decide, by decide⟩, by decide, by decide,
    domain_check_for_local_refine_C1 (fun x => 1) [] 5 0 refine_demo_state
      (by decide) (by decide)⟩

/-- Overwriting one entry trades its value against the new one in the sum. -/
theorem sum_set_add (l : List ℕ) (i v : ℕ) (h : i < l.length) :
    (l.set i v).sum + l.getD i 0 = l.sum + v := by
  rw [List.set_eq_take_append_cons_drop, if_pos h]
  conv_rhs => rw [← List.take_append_drop i l, List.drop_eq_getElem_cons h]
  rw [List.sum_append, List.sum_append, List.sum_cons, List.sum_cons]
  rw [List.getD_eq_getElem l 0 h]
  omega

/-- A positive read with default 0 is a read in range. -/
theorem getD_pos_lt (l : List ℕ) (i : ℕ) (h : 0 < l.getD i 0) : i < l.length := by
  by_contra hc
  push_neg at hc
  rw [List.getD_eq_default _ _ hc] at h
  omega

/-- A finished shed removed exactly the overflow, one decrement at a time. -/
theorem shedLoop_sum (ntask : ℕ) (fuel : ℕ) :
    ∀ col n i col2, shedLoop ntask fuel col n i = some col2 →
      col2.sum + n = col.sum := by
  induction fuel with
  | zero =>
    intro col n i col2 h
    cases n with
    | zero =>
      simp only [shedLoop] at h
      injection h with h2
      subst h2
      omega
    | succ n => simp [shedLoop] at h
  | succ fuel ih =>
    intro col n i col2 h
    cases n with
    | zero =>
      simp only [shedLoop] at h
      injection h with h2
      subst h2
      omega
    | succ n =>
      simp only [shedLoop] at h
      by_cases hp : 0 < col.getD i 0
      · rw [if_pos hp] at h
        have h2 := ih _ _ _ _ h
        have hs := sum_set_add col i (col.getD i 0 - 1) (getD_pos_lt col i hp)
        omega
      · rw [if_neg hp] at h
        have h2 := ih _ _ _ _ h
        omega

/-- A finished shed never raises any rank count. -/
theorem shedLoop_le (ntask : ℕ) (fuel : ℕ) :
    ∀ col n i col2, shedLoop ntask fuel col n i = some col2 →
      ∀ r, col2.getD r 0 ≤ col.getD r 0 := by
  induction fuel with
  | zero =>
    intro col n i col2 h r
    cases n with
    | zero =>
      simp only [shedLoop] at h
      injection h with h2
      subst h2
      exact le_refl _
    | succ n => simp [shedLoop] at h
  | succ fuel ih =>
    intro col n i col2 h r
    cases n with
    | zero =>
      simp only [shedLoop] at h
      injection h with h2
      subst h2
      exact le_refl _
    | succ n =>
      simp only [shedLoop] at h
      by_cases hp : 0 < col.getD i 0
      · rw [if_pos hp] at h
        have h2 := ih _ _ _ _ h r
        by_cases hri : i = r
        · subst hri
          rw [getD_set_eq _ _ _ _ (getD_pos_lt col i hp)] at h2
          omega
        · rw [getD_set_neq _ _ _ _ _ hri] at h2
          exact h2
      · rw [if_neg hp] at h
        exact ih _ _ _ _ h r

/-- The safety loop never reports success past 100 flagged sweeps. -/
theorem safetyInner_le (ntask maxPart maxPartBh fuel : ℕ) (left : ℕ) :
    ∀ flagsum s s2 fs2,
      safetyInner ntask maxPart maxPartBh fuel left flagsum s = Except.ok (s2, fs2) →
      fs2 ≤ 100 := by
  induction left with
  | zero =>
    intro flagsum s s2 fs2 h
    unfold safetyInner at h
    cases hsw : sweepFrom ntask maxPart maxPartBh fuel flagsum ntask s false with
    | error e =>
      rw [hsw] at h
      simp at h
    | ok p =>
      obtain ⟨s3, fl⟩ := p
      rw [hsw] at h
      cases fl with
      | false =>
        simp only [Bool.false_eq_true, if_false, Nat.add_zero] at h
        split at h
        · simp at h
        · rw [Except.ok.injEq, Prod.mk.injEq] at h
          obtain ⟨h1, h2⟩ := h
          omega
      | true =>
        simp only [if_true] at h
        split at h
        · simp at h
        · simp at h
  | succ left2 ih =>
    intro flagsum s s2 fs2 h
    unfold safetyInner at h
    cases hsw : sweepFrom ntask maxPart maxPartBh fuel flagsum ntask s false with
    | error e =>
      rw [hsw] at h
      simp at h
    | ok p =>
      obtain ⟨s3, fl⟩ := p
      rw [hsw] at h
      cases fl with
      | false =>
        simp only [Bool.false_eq_true, if_false, Nat.add_zero] at h
        split at h
        · simp at h
        · rw [Except.ok.injEq, Prod.mk.injEq] at h
          obtain ⟨h1, h2⟩ := h
          omega
      | true =>
        simp only [if_true] at h
        split at h
        · simp at h
        · exact ih _ _ _ _ h

/-- A sweep that still flags at flagsum 100 aborts with endrun 1013. -/
theorem safetyInner_fatal (ntask maxPart maxPartBh fuel left : ℕ) (s s2 : exchange_state)
    (h : sweepFrom ntask maxPart maxPartBh fuel 100 ntask s false = Except.ok (s2, true)) :
    safetyInner ntask maxPart maxPartBh fuel left 100 s = Except.error 1013 := by
  cases left with
  | zero =>
    unfold safetyInner
    rw [h]
    simp
  | succ left2 =>
    unfold safetyInner
    rw [h]
    simp

/-- C8: in the receive side safety loop of the exchange engine, a rank that
cannot accept its inbound volume is relieved by shedding inbound particles
one decrement at a time round robin across ranks, a finished shed removing
exactly the overflow and never driving a count negative; the loop reports
success only with at most 100 flagged overflow sweeps, and a sweep that
still flags once flagsum has reached 100 is the fatal endrun 1013. -/
theorem domain_countToGo_C8 (ntask maxPart maxPartBh fuel : ℕ) :
    (∀ left flagsum s s2 fs2,
      safetyInner ntask maxPart maxPartBh fuel left flagsum s = Except.ok (s2, fs2) →
      fs2 ≤ 100) ∧
    (∀ left s s2,
      sweepFrom ntask maxPart maxPartBh fuel 100 ntask s false = Except.ok (s2, true) →
      safetyInner ntask maxPart maxPartBh fuel left 100 s = Except.error 1013) ∧
    (∀ fuel2 col n i col2, shedLoop ntask fuel2 col n i = some col2 →
      col2.sum + n = col.sum ∧ ∀ r, col2.getD r 0 ≤ col.getD r 0) :=
  ⟨fun left flagsum s s2 fs2 h =>
      safetyInner_le ntask maxPart maxPartBh fuel left flagsum s s2 fs2 h,
   fun left s s2 h => safetyInner_fatal ntask maxPart maxPartBh fuel left s s2 h,
   fun fuel2 col n i col2 h =>
      ⟨shedLoop_sum ntask fuel2 col n i col2 h, shedLoop_le ntask fuel2 col n i col2 h⟩⟩

set_option maxHeartbeats 1000000 in
/-- Witness for C8: a pass with nothing to exchange succeeds with no
flagged sweep, within the permitted 100; a sweep that still flags at
flagsum 100 (the stale snapshot keeps rank 1 one particle over) is the
fatal endrun 1013; and a concrete shed removes exactly its overflow of two,
one decrement at a time round robin. -/
theorem domain_countToGo_C8_witness :
    safetyInner 2 2 1 9 101 0 exchange_demo_ok = Except.ok (exchange_demo_ok, 0) ∧
    (0 : ℕ) ≤ 100 ∧
    sweepFrom 2 2 1 9 100 2 exchange_demo_over false = Except.ok (exchange_demo_shed, true) ∧
    safetyInner 2 2 1 9 5 100 exchange_demo_over = Except.error 1013 ∧
    shedLoop 2 9 [3, 0] 2 0 = some [1, 0] ∧
    ([1, 0] : List ℕ).sum + 2 = ([3, 0] : List ℕ).sum :=
  ⟨by decide,
   (domain_countToGo_C8 2 2 1 9).1 101 0 exchange_demo_ok exchange_demo_ok 0 (by decide),
   by decide,
   (domain_countToGo_C8 2 2 1 9).2.1 5 exchange_demo_over exchange_demo_shed (by decide),
   by decide,
   ((domain_countToGo_C8 2 2 1 9).2.2 9 [3, 0] 2 0 [1, 0] (by decide)).1⟩
